import Mathlib

/-!
Verification development for the BayesianMIDI performance engine.

The definitions below are shallow embeddings of the Python sources:
  * `src/bayesian/bayesian_network_helpers.py` — the enum and record types;
  * `src/bayesian/bayesian_network_ag.py` — the conditional probability
    tables filled in `_build_network` (floats are embedded as exact
    rationals; every literal matches the source);
  * `src/bayesian/bayesian_network_ag_baked.py` — the baking loop
    `_bake_logic`, the lookup `infer`, and `_resolve_pitch`;
  * `src/tempo_engine.py` — the clock;
  * `src/main.py` — the per-tick glue (dominant-event selection, derived
    beat/step, the emit phase) and the evidence buffer accesses;
  * `src/MidiScheduler.py` — the deferred note-off scheduler, together
    with a faithful model of CPython `heapq` (`heappush`/`heappop`
    with `_siftdown`/`_siftup`) over `(dueTime, message)` tuples, where
    comparing two tuples with equal first components falls through to the
    mido message payloads, which do not support ordering (TypeError,
    modelled as `Except.error`).

Randomness is made explicit: every `random.random()` / `random.choices`
draw is a rational argument, so each function is a deterministic map from
inputs and draws to results, exactly as the seeded-source reproducibility
contract demands.
-/

/-- Enum from `bayesian_network_helpers.py` (`class DrumType(IntEnum)`). -/
inductive DrumType where
  | NONE | KICK | SNARE | RIM
deriving DecidableEq

/-- Enum from `bayesian_network_helpers.py` (`class DensityLevel(IntEnum)`). -/
inductive DensityLevel where
  | SPARSE | MEDIUM | BUSY
deriving DecidableEq

/-- Enum from `bayesian_network_helpers.py` (`class EnergyLevel(IntEnum)`). -/
inductive EnergyLevel where
  | CHILL | GROOVE | HIGH
deriving DecidableEq

/-- Enum from `bayesian_network_helpers.py` (`class ChordType(IntEnum)`). -/
inductive ChordType where
  | I | IV | V | VI
deriving DecidableEq

/-- Enum from `bayesian_network_helpers.py` (`class BeatType(IntEnum)`). -/
inductive BeatType where
  | DOWNBEAT | OFFBEAT | SUBDIVISION
deriving DecidableEq

/-- Enum from `bayesian_network_helpers.py` (`class PitchFunc(IntEnum)`). -/
inductive PitchFunc where
  | ROOT | THIRD_FIFTH | COLOR
deriving DecidableEq

/-- `BayesianInput` dataclass from `bayesian_network_helpers.py`. -/
structure BInput where
  drum_type : DrumType
  velocity : ℤ
  bar : ℕ
  step : ℕ
deriving DecidableEq

/-- `BayesianOutput` dataclass from `bayesian_network_helpers.py`
(`duration: float` embedded as a rational). -/
structure BOutput where
  should_play : Bool
  midi_note : ℤ
  velocity : ℤ
  duration : ℚ
  channel : ℕ
  debug_info : String
deriving DecidableEq

/-- Density CPT from `bayesian_network_ag.py` `_build_network`:
`fillWith([0.33, 0.33, 0.34] * 16)` then the six `set_density` calls
(Kick/Snare/Rim for bars 1-3 and bar 4; `NONE` keeps the default row). -/
def densityCPT (bar : ℕ) (drum : DrumType) (d : DensityLevel) : ℚ :=
  match drum, d with
  | .KICK, .SPARSE => if bar = 4 then 0.40 else 0.80
  | .KICK, .MEDIUM => if bar = 4 then 0.40 else 0.15
  | .KICK, .BUSY => if bar = 4 then 0.20 else 0.05
  | .SNARE, .SPARSE => if bar = 4 then 0.05 else 0.20
  | .SNARE, .MEDIUM => if bar = 4 then 0.25 else 0.70
  | .SNARE, .BUSY => if bar = 4 then 0.70 else 0.10
  | .RIM, .SPARSE => if bar = 4 then 0.05 else 0.10
  | .RIM, .MEDIUM => if bar = 4 then 0.25 else 0.40
  | .RIM, .BUSY => if bar = 4 then 0.70 else 0.50
  | .NONE, .SPARSE => 0.33
  | .NONE, .MEDIUM => 0.33
  | .NONE, .BUSY => 0.34

/-- Energy CPT from `bayesian_network_ag.py`: the six `set_energy` calls
(all `In_Velocity × Density` combinations are set). -/
def energyCPT (is_loud : Bool) (d : DensityLevel) (e : EnergyLevel) : ℚ :=
  match is_loud, d, e with
  | false, .SPARSE, .CHILL => 0.95
  | false, .SPARSE, .GROOVE => 0.05
  | false, .SPARSE, .HIGH => 0
  | false, .MEDIUM, .CHILL => 0.80
  | false, .MEDIUM, .GROOVE => 0.20
  | false, .MEDIUM, .HIGH => 0
  | false, .BUSY, .CHILL => 0.60
  | false, .BUSY, .GROOVE => 0.40
  | false, .BUSY, .HIGH => 0
  | true, .SPARSE, .CHILL => 0.20
  | true, .SPARSE, .GROOVE => 0.70
  | true, .SPARSE, .HIGH => 0.10
  | true, .MEDIUM, .CHILL => 0.05
  | true, .MEDIUM, .GROOVE => 0.50
  | true, .MEDIUM, .HIGH => 0.45
  | true, .BUSY, .CHILL => 0
  | true, .BUSY, .GROOVE => 0.10
  | true, .BUSY, .HIGH => 0.90

/-- Chord CPT from `bayesian_network_ag.py`: `fillWith([0.25]*…)` then the
four `set_chord` calls for bars 1-4 (other bar indices keep the default). -/
def chordCPT (bar : ℕ) (c : ChordType) : ℚ :=
  match bar, c with
  | 1, .I => 0.95
  | 1, .IV => 0
  | 1, .V => 0.05
  | 1, .VI => 0
  | 2, .I => 0.10
  | 2, .IV => 0.80
  | 2, .V => 0.05
  | 2, .VI => 0.05
  | 3, .I => 0.90
  | 3, .IV => 0.05
  | 3, .V => 0.05
  | 3, .VI => 0
  | 4, .I => 0.05
  | 4, .IV => 0.05
  | 4, .V => 0.85
  | 4, .VI => 0.05
  | _, _ => 0.25

/-- Play-gate CPT from `bayesian_network_ag.py` (probability of
`Play_Note = 1`): the nested loop over drum/beat/density. -/
def playCPT (drum : DrumType) (beat : BeatType) (d : DensityLevel) : ℚ :=
  match drum with
  | .NONE => 0
  | .KICK => if beat = .DOWNBEAT then 0.99 else (if d = .SPARSE then 0.2 else 0.8)
  | _ => if d = .SPARSE then 0.2 else 0.8

/-- Pitch-function CPT from `bayesian_network_ag.py`:
`fillWith([0.30, 0.40, 0.30] * 12)` then the three explicit rows. -/
def pitchFuncCPT (c : ChordType) (beat : BeatType) (p : PitchFunc) : ℚ :=
  match c, beat, p with
  | .I, .DOWNBEAT, .ROOT => 0.80
  | .I, .DOWNBEAT, .THIRD_FIFTH => 0.15
  | .I, .DOWNBEAT, .COLOR => 0.05
  | .I, .OFFBEAT, .ROOT => 0.20
  | .I, .OFFBEAT, .THIRD_FIFTH => 0.60
  | .I, .OFFBEAT, .COLOR => 0.20
  | .V, .DOWNBEAT, .ROOT => 0.50
  | .V, .DOWNBEAT, .THIRD_FIFTH => 0.30
  | .V, .DOWNBEAT, .COLOR => 0.20
  | _, _, .ROOT => 0.30
  | _, _, .THIRD_FIFTH => 0.40
  | _, _, .COLOR => 0.30

/-- Output-channel CPT from `bayesian_network_ag.py`:
`fillWith([1, 0, 0] * 16)` (default channel 1, kept by `NONE`), Kick always
channel index 0, Rim always index 2, Snare `[0, .9, .1]` on bars 1-3 and
`[0, .4, .6]` on bar 4.  `ch` is the channel index 0-2. -/
def channelCPT (drum : DrumType) (bar : ℕ) (ch : ℕ) : ℚ :=
  match drum with
  | .NONE => if ch = 0 then 1 else 0
  | .KICK => if ch = 0 then 1 else 0
  | .RIM => if ch = 2 then 1 else 0
  | .SNARE =>
      if bar = 4 then (if ch = 0 then 0 else if ch = 1 then 0.40 else 0.60)
      else (if ch = 0 then 0 else if ch = 1 then 0.90 else 0.10)

def densityLevels : List DensityLevel := [.SPARSE, .MEDIUM, .BUSY]

def energyLevels : List EnergyLevel := [.CHILL, .GROOVE, .HIGH]

def chordTypes : List ChordType := [.I, .IV, .V, .VI]

def pitchFuncs : List PitchFunc := [.ROOT, .THIRD_FIFTH, .COLOR]

/-- Beat-type derivation shared by `_bake_logic` and
`BayesianMusicGeneratorAg.infer`:
`is_downbeat = (step % 4 == 1)`,
`is_offbeat = (step % 2 == 1) and not is_downbeat`. -/
def beatTypeOf (step : ℕ) : BeatType :=
  if step % 4 = 1 then .DOWNBEAT
  else if step % 2 = 1 then .OFFBEAT
  else .SUBDIVISION

/-- Posterior `P(Play_Note = 0) , P(Play_Note = 1)` given the four evidence
nodes, as computed by variable elimination on the network of
`bayesian_network_ag.py`: the only latent parent of the play gate is
`Density`, whose parents `Bar` and `Drum_Type` are evidence. -/
def posteriorPlay (bar : ℕ) (drum : DrumType) (beat : BeatType) : List ℚ :=
  [(densityLevels.map (fun d => densityCPT bar drum d * (1 - playCPT drum beat d))).sum,
   (densityLevels.map (fun d => densityCPT bar drum d * playCPT drum beat d)).sum]

/-- Posterior over `Pitch_Func` given evidence: marginalises the latent
`Chord`, whose only parent `Bar` is evidence. -/
def posteriorPitch (bar : ℕ) (beat : BeatType) : List ℚ :=
  pitchFuncs.map (fun p => (chordTypes.map (fun c => chordCPT bar c * pitchFuncCPT c beat p)).sum)

/-- Posterior over `Chord` given evidence (its parent `Bar` is evidence). -/
def posteriorChord (bar : ℕ) : List ℚ :=
  chordTypes.map (fun c => chordCPT bar c)

/-- Posterior over `Energy` given evidence: marginalises the latent
`Density`. -/
def posteriorEnergy (bar : ℕ) (drum : DrumType) (is_loud : Bool) : List ℚ :=
  energyLevels.map (fun e => (densityLevels.map (fun d => densityCPT bar drum d * energyCPT is_loud d e)).sum)

/-- Posterior over `Out_Channel` given evidence (parents `Drum_Type` and
`Bar` are both evidence). -/
def posteriorChannel (drum : DrumType) (bar : ℕ) : List ℚ :=
  [0, 1, 2].map (fun ch => channelCPT drum bar ch)

/-- The cached bundle stored by `_bake_logic` for one key (the Python dict
with keys play/pitch/chord/energy/channel). -/
structure CacheEntry where
  play : List ℚ
  pitch : List ℚ
  chord : List ℚ
  energy : List ℚ
  channel : List ℚ
deriving DecidableEq

/-- Key type of the lookup table: `(Bar, DrumEnum, IsLoud, Step)`. -/
abbrev TableKey := ℕ × DrumType × Bool × ℕ

/-- One iteration body of `_bake_logic`: run inference for the key and
either store the bundle or the `None` sentinel
(`if play_dist[1] < 0.001: cache_entry = None`). -/
def bakeEntry (bar : ℕ) (drum : DrumType) (is_loud : Bool) (step : ℕ) : Option CacheEntry :=
  let beat := beatTypeOf step
  let play_dist := posteriorPlay bar drum beat
  if play_dist.getD 1 0 < 0.001 then Option.none
  else some
    { play := play_dist
      pitch := posteriorPitch bar beat
      chord := posteriorChord bar
      energy := posteriorEnergy bar drum is_loud
      channel := posteriorChannel drum bar }

/-- The declared key domain in the iteration order of `_bake_logic`:
`bar in range(1, 5)`, drums `[NONE, KICK, SNARE, RIM]`,
`is_loud in [False, True]`, `step in range(1, 17)`. -/
def domainKeys : List TableKey :=
  (List.range 4).flatMap (fun b0 =>
    [DrumType.NONE, DrumType.KICK, DrumType.SNARE, DrumType.RIM].flatMap (fun drum =>
      [false, true].flatMap (fun l =>
        (List.range 16).map (fun s0 => (b0 + 1, drum, l, s0 + 1)))))

/-- `self._lookup_table` after `_bake_logic`: an insertion-ordered map from
every domain key to its baked entry (the Python dict is modelled as an
association list in insertion order; keys are unique). -/
def bakedTable : List (TableKey × Option CacheEntry) :=
  domainKeys.map (fun k => (k, bakeEntry k.1 k.2.1 k.2.2.1 k.2.2.2))

/-- Python `dict.get(key)`: `None` when the key is missing — which is
indistinguishable from a stored `None` sentinel value. -/
def pyDictGet (t : List (TableKey × Option CacheEntry)) (k : TableKey) : Option CacheEntry :=
  match t.find? (fun p => decide (p.1 = k)) with
  | Option.none => Option.none
  | some p => p.2

/-- Running sums of a weight list, as built by `itertools.accumulate`
inside `random.choices`. -/
def cumWeights : List ℚ → ℚ → List ℚ
  | [], _ => []
  | w :: ws, acc => (acc + w) :: cumWeights ws (acc + w)

/-- `bisect.bisect_right(a, x, 0, hi)` for a sorted list: the number of
entries of `a.take hi` that are `≤ x` (the binary search of the library
computes exactly this insertion point). -/
def bisectRight (a : List ℚ) (x : ℚ) (hi : ℕ) : ℕ :=
  ((a.take hi).takeWhile (fun c => decide (c ≤ x))).length

/-- `random.choices(range(n), weights=ws)[0]` given the uniform draw
`r ∈ [0,1)`: raises `ValueError` when the total weight is not positive
(and `IndexError` on an empty list), otherwise returns
`bisect(cum_weights, r * total, 0, n - 1)`. -/
def choicesIdx (ws : List ℚ) (r : ℚ) : Except Unit ℕ :=
  match (cumWeights ws 0).getLast? with
  | Option.none => .error ()
  | some total =>
      if total ≤ 0 then .error ()
      else .ok (bisectRight (cumWeights ws 0) (r * total) (ws.length - 1))

/-- The explicit uniform draws consumed by one `infer` call (one per
`random.choices` / `random.random()` call site, in call order). -/
structure Draws where
  play : ℚ
  pitch : ℚ
  chord : ℚ
  energy : ℚ
  channel : ℚ
  interval : ℚ
deriving DecidableEq

/-- `BakedBayesianGenerator._resolve_pitch`, with the single
`random.random()` draw `r` made explicit (only the third-or-fifth and
color branches consume it). -/
def resolve_pitch (chord : ChordType) (func : PitchFunc) (channel : ℕ) (r : ℚ) : ℤ :=
  let root_offset : ℤ :=
    match chord with
    | .IV => 5
    | .V => 7
    | .VI => 9
    | .I => 0
  let interval : ℤ :=
    match func with
    | .THIRD_FIFTH => if r < 0.5 then 4 else 7
    | .COLOR => if r < 0.33 then 2 else if r < 0.66 then 11 else 14
    | .ROOT => 0
  let base_pitch := 60 + root_offset + interval
  if channel = 1 then base_pitch - 24
  else if channel = 2 then base_pitch - 12
  else if channel = 3 then base_pitch + 24
  else base_pitch

/-- Python `int(x)` for a rational: truncation toward zero. -/
def pyInt (q : ℚ) : ℤ :=
  if q < 0 then ⌈q⌉ else ⌊q⌋

def drumName : DrumType → String
  | .NONE => "NONE"
  | .KICK => "KICK"
  | .SNARE => "SNARE"
  | .RIM => "RIM"

def chordName : ChordType → String
  | .I => "I"
  | .IV => "IV"
  | .V => "V"
  | .VI => "VI"

def pfName : PitchFunc → String
  | .ROOT => "ROOT"
  | .THIRD_FIFTH => "THIRD_FIFTH"
  | .COLOR => "COLOR"

/-- Decidable equality of `Except` results (used to evaluate the embedded
functions at concrete inputs). -/
def exceptDecEq {α β : Type} [DecidableEq α] [DecidableEq β] :
    DecidableEq (Except α β) := fun a b =>
  match a, b with
  | .ok x, .ok y =>
      if h : x = y then isTrue (by rw [h]) else isFalse (fun hc => h (Except.ok.inj hc))
  | .error x, .error y =>
      if h : x = y then isTrue (by rw [h]) else isFalse (fun hc => h (Except.error.inj hc))
  | .ok _, .error _ => isFalse (fun hc => Except.noConfusion hc)
  | .error _, .ok _ => isFalse (fun hc => Except.noConfusion hc)

instance {α β : Type} [DecidableEq α] [DecidableEq β] : DecidableEq (Except α β) := exceptDecEq

/-- The rest decision returned on a missing key or stored sentinel:
`BayesianOutput(False, 0, 0, 0, 0, "Rest (Baked)")`. -/
def restBaked : BOutput :=
  { should_play := false, midi_note := 0, velocity := 0, duration := 0,
    channel := 0, debug_info := "Rest (Baked)" }

/-- The rest decision returned when the sampled play gate is false:
`BayesianOutput(False, 0, 0, 0, 0, "Rest")`. -/
def restSampled : BOutput :=
  { should_play := false, midi_note := 0, velocity := 0, duration := 0,
    channel := 0, debug_info := "Rest" }

/-- `BakedBayesianGenerator.infer`: key derivation (`is_loud = velocity > 90`),
dictionary lookup, play-gate sample, then the four independent categorical
samples and the deterministic post-processing.  Sampling failures
(`ValueError` on a degenerate weight vector) surface as `Except.error`. -/
def inferBaked (data : BInput) (rs : Draws) : Except Unit BOutput :=
  let is_loud : Bool := decide (data.velocity > 90)
  let key : TableKey := (data.bar, data.drum_type, is_loud, data.step)
  match pyDictGet bakedTable key with
  | Option.none => .ok restBaked
  | some dists =>
    match choicesIdx dists.play rs.play with
    | .error e => .error e
    | .ok spIdx =>
      let should_play := [false, true].getD spIdx false
      if should_play = false then .ok restSampled
      else
        match choicesIdx dists.pitch rs.pitch with
        | .error e => .error e
        | .ok pfIdx =>
          let pf_val := pitchFuncs.getD pfIdx .ROOT
          match choicesIdx dists.chord rs.chord with
          | .error e => .error e
          | .ok cIdx =>
            let current_chord := chordTypes.getD cIdx .I
            match choicesIdx dists.energy rs.energy with
            | .error e => .error e
            | .ok eIdx =>
              let current_energy := energyLevels.getD eIdx .CHILL
              match choicesIdx dists.channel rs.channel with
              | .error e => .error e
              | .ok chIdx =>
                let final_channel := chIdx + 1
                let energy_mult : ℚ := if current_energy = .HIGH then 1.2 else 0.9
                let fv := pyInt ((data.velocity : ℚ) * energy_mult)
                let final_velocity := if fv > 127 then 127 else fv
                let final_pitch := resolve_pitch current_chord pf_val final_channel rs.interval
                .ok
                  { should_play := true
                    midi_note := final_pitch
                    velocity := final_velocity
                    duration := 0.5
                    channel := final_channel
                    debug_info := chordName current_chord ++ " -> " ++ pfName pf_val ++ " (Baked)" }

/-! ## Tempo engine (`src/tempo_engine.py`)

Wall-clock readings (`time.perf_counter()`) are passed explicitly as
rational arguments; the state mirrors the instance attributes. -/

/-- The attributes of `TempoEngine.__init__`. -/
structure TempoState where
  bpm : ℚ
  steps_per_beat : ℚ
  interval : ℚ
  last_tick_time : ℚ
  step_counter : ℕ
deriving DecidableEq

/-- `TempoEngine(bpm=120, steps_per_beat=4)` constructed at clock time
`now`. -/
def tempoInit (now : ℚ) : TempoState :=
  { bpm := 120, steps_per_beat := 4, interval := (60 / 120) / 4,
    last_tick_time := now, step_counter := 0 }

/-- `TempoEngine.set_bpm`: `self.bpm = new_bpm` happens first, then
`self.interval = (60.0 / self.bpm) / self.steps_per_beat`; a zero divisor
raises `ZeroDivisionError` (`Except.error` carrying the already-mutated
state).  There is no validation of the argument. -/
def set_bpm (s : TempoState) (new_bpm : ℚ) : Except TempoState TempoState :=
  let s1 := { s with bpm := new_bpm }
  if s1.bpm = 0 then .error s1
  else if s1.steps_per_beat = 0 then .error s1
  else .ok { s1 with interval := (60 / s1.bpm) / s1.steps_per_beat }

/-- `TempoEngine.check_tick` at clock reading `now`: fires when a full
interval has elapsed, re-basing `last_tick_time` by adding the interval
(never by resampling `now`) and bumping the counter by one. -/
def check_tick (s : TempoState) (now : ℚ) : Bool × TempoState :=
  if now - s.last_tick_time ≥ s.interval then
    (true, { s with last_tick_time := s.last_tick_time + s.interval,
                    step_counter := s.step_counter + 1 })
  else (false, s)

/-- `TempoEngine.reset` at clock reading `now`. -/
def tempoReset (s : TempoState) (now : ℚ) : TempoState :=
  { s with step_counter := 0, last_tick_time := now }

/-- A sequence of `check_tick` polls at the given clock readings. -/
def runPolls (s : TempoState) : List ℚ → TempoState
  | [] => s
  | now :: rest => runPolls (check_tick s now).2 rest

/-- The state after a firing poll (the then-branch of `check_tick`). -/
def fireState (s : TempoState) : TempoState :=
  { s with last_tick_time := s.last_tick_time + s.interval,
           step_counter := s.step_counter + 1 }

/-! ## Per-tick glue (`src/main.py`)

`run_clock` derives `beat`/`sub` from the tick counter
(the source reads `self.tempo_engine.step_count`, an attribute that
`TempoEngine` does not define — the engine's field is `step_counter`, the
name used by the repository's own `utilities/MidiMonitor.py`; the
derivation below is modelled on `step_counter`), and
`process_bayesian_step` derives `current_step` from `beat`/`sub`. -/

/-- `beat = ((steps // 4) % 4) + 1` (main.py `run_clock`). -/
def beatOf (steps : ℕ) : ℕ := ((steps / 4) % 4) + 1

/-- `sub = steps % 4` (main.py `run_clock`). -/
def subOf (steps : ℕ) : ℕ := steps % 4

/-- `current_step = ((beat - 1) * 4) + sub + 1`
(main.py `process_bayesian_step`). -/
def currentStepOf (beat sub : ℕ) : ℕ := ((beat - 1) * 4) + sub + 1

/-- The dominant-input loop of `process_bayesian_step`:
`dominant_drum = DrumType.NONE; max_velocity = 0;`
`for d_type, vel in recent_events: if vel > max_velocity: …` -/
def dominantLoop : List (DrumType × ℤ) → DrumType → ℤ → DrumType × ℤ
  | [], dominant_drum, max_velocity => (dominant_drum, max_velocity)
  | (d_type, vel) :: rest, dominant_drum, max_velocity =>
      if vel > max_velocity then dominantLoop rest d_type vel
      else dominantLoop rest dominant_drum max_velocity

/-- Dominant event selection over the drained buffer contents
(the `if recent_events:` guard is kept from the source). -/
def selectDominant (recent_events : List (DrumType × ℤ)) : DrumType × ℤ :=
  if recent_events.isEmpty then (.NONE, 0)
  else dominantLoop recent_events .NONE 0

/-- Observable actions of one `process_bayesian_step` call after the
decision has been computed. -/
inductive EmitAction where
  | logGen (result : BOutput)
  | playNote (note : ℤ) (velocity : ℤ) (channel : ℕ) (duration : ℚ)
  | logErr (message : String)
deriving DecidableEq

/-- The emit phase of `process_bayesian_step` (main.py lines 217-227):
log the decision, return if it is a rest, otherwise either hand the note
to `play_note` (when an output port is configured) or report
`"No Output selected!"` via `log_error` — and in every case fall off the
end of the function, so the tick loop continues. -/
def emitPhase (result : BOutput) (hasPort : Bool) : List EmitAction :=
  .logGen result ::
    (if result.should_play ≠ true then []
     else if hasPort then
       [.playNote result.midi_note result.velocity result.channel result.duration]
     else [.logErr "No Output selected!"])

/-- One whole `process_bayesian_step`: the decision is computed by `infer`
first (independently of whether a port is configured), then emitted. -/
def processStep (evidence : BInput) (hasPort : Bool) (rs : Draws) : Except Unit (List EmitAction) :=
  match inferBaked evidence rs with
  | .error e => .error e
  | .ok result => .ok (emitPhase result hasPort)

/-! ## Evidence buffer (`self.midi_buffer` in `src/main.py`)

The consumer does `recent_events = self.midi_buffer[:]` followed by
`self.midi_buffer.clear()` — two separate atomic steps, not one atomic
swap — while the listener thread appends.  The machine below exposes
exactly those three atomic operations so that interleavings can be
analysed; `drains` records the contents handed to each
`process_bayesian_step` call. -/

inductive BufOp where
  | record (e : ℕ)
  | copy
  | clear
deriving DecidableEq

structure BufState where
  buf : List ℕ
  snap : List ℕ
  drains : List (List ℕ)
deriving DecidableEq

def bufInit : BufState := { buf := [], snap := [], drains := [] }

/-- One atomic step: `record` is `midi_buffer.append(e)`; `copy` is
`recent_events = midi_buffer[:]`; `clear` is `midi_buffer.clear()`, at
which point the previously copied snapshot is what the tick processes. -/
def bufStep (s : BufState) : BufOp → BufState
  | .record e => { s with buf := s.buf ++ [e] }
  | .copy => { s with snap := s.buf }
  | .clear => { s with buf := [], drains := s.drains ++ [s.snap] }

def bufRun (s : BufState) : List BufOp → BufState
  | [] => s
  | op :: rest => bufRun (bufStep s op) rest

/-- The events recorded by a trace, in arrival order. -/
def recordedEvents : List BufOp → List ℕ
  | [] => []
  | .record e :: rest => e :: recordedEvents rest
  | _ :: rest => recordedEvents rest

/-- An atomic drain: the copy and the clear with no record interleaved. -/
def atomicDrain : List BufOp := [.copy, .clear]

/-! ## Deferred note-off scheduler (`src/MidiScheduler.py`)

`play_note` pushes `(off_time, msg_off)` onto a `heapq` min-heap; the
single worker pops the root once its due time has passed.  The heap
entries are tuples whose second components are `mido.Message` values,
which define no ordering: Python's tuple comparison therefore raises
`TypeError` whenever two compared entries have equal first components.
`heappush`/`heappop` below are the CPython `heapq` algorithms
(`_siftdown`/`_siftup`), with list indexing via `getD`/`set` and the
partial comparison in the `Except` monad. -/

/-- A queue entry `(off_time, msg_off)`; the message is an opaque id. -/
abbrev SchedEntry := ℚ × ℕ

def entryDflt : SchedEntry := (0, 0)

/-- Python `<` on `(float, mido.Message)` tuples: decided by the first
components when they differ, otherwise it compares the messages and
raises `TypeError` (mido messages are unordered). -/
def entryLt (a b : SchedEntry) : Except Unit Bool :=
  if a.1 < b.1 then .ok true
  else if b.1 < a.1 then .ok false
  else .error ()

/-- The parent index of heap slot `i`: `(i - 1) >> 1`. -/
def hpar (i : ℕ) : ℕ := (i - 1) / 2

/-- The `while pos > startpos` loop of `heapq._siftdown`, carrying
`newitem`: compare with the parent, move the parent down and continue, or
place `newitem` and stop. -/
def siftdownLoop (heap : List SchedEntry) (startpos pos : ℕ) (newitem : SchedEntry) :
    Except Unit (List SchedEntry) :=
  if hsp : startpos < pos then
    let parentpos := hpar pos
    let parent := heap.getD parentpos entryDflt
    match entryLt newitem parent with
    | .error e => .error e
    | .ok true => siftdownLoop (heap.set pos parent) startpos parentpos newitem
    | .ok false => .ok (heap.set pos newitem)
  else .ok (heap.set pos newitem)
termination_by pos
decreasing_by
  have h1 : pos - 1 < pos := Nat.sub_lt (Nat.lt_of_le_of_lt (Nat.zero_le _) hsp) Nat.one_pos
  exact Nat.lt_of_le_of_lt (Nat.div_le_self _ _) h1

/-- `heapq._siftdown(heap, startpos, pos)`: reads `newitem = heap[pos]`
and runs the loop. -/
def siftdownFn (heap : List SchedEntry) (startpos pos : ℕ) : Except Unit (List SchedEntry) :=
  siftdownLoop heap startpos pos (heap.getD pos entryDflt)

/-- `heapq.heappush`: `heap.append(item); _siftdown(heap, 0, len(heap)-1)`. -/
def heappush (heap : List SchedEntry) (item : SchedEntry) : Except Unit (List SchedEntry) :=
  siftdownFn (heap ++ [item]) 0 heap.length

/-- The `while childpos < endpos` loop of `heapq._siftup`: move the
smaller child up and walk the hole down to a leaf; returns the shifted
array and the final hole position (the write of `newitem` and the final
`_siftdown` happen in `siftupFn`). -/
def siftupLoop (heap : List SchedEntry) (pos endpos : ℕ) : Except Unit (List SchedEntry × ℕ) :=
  let childpos := 2 * pos + 1
  if hce : childpos < endpos then
    let rightpos := childpos + 1
    if hre : rightpos < endpos then
      match entryLt (heap.getD childpos entryDflt) (heap.getD rightpos entryDflt) with
      | .error e => .error e
      | .ok true => siftupLoop (heap.set pos (heap.getD childpos entryDflt)) childpos endpos
      | .ok false => siftupLoop (heap.set pos (heap.getD rightpos entryDflt)) rightpos endpos
    else siftupLoop (heap.set pos (heap.getD childpos entryDflt)) childpos endpos
  else .ok (heap, pos)
termination_by endpos - pos
decreasing_by
  all_goals omega

/-- `heapq._siftup(heap, pos)`: `endpos = len(heap)`, `newitem = heap[pos]`,
walk the hole to a leaf, write `newitem` there and `_siftdown` back up
toward `startpos = pos`. -/
def siftupFn (heap : List SchedEntry) (pos : ℕ) : Except Unit (List SchedEntry) :=
  let endpos := heap.length
  let startpos := pos
  let newitem := heap.getD pos entryDflt
  match siftupLoop heap pos endpos with
  | .error e => .error e
  | .ok (h2, fp) => siftdownFn (h2.set fp newitem) startpos fp

/-- `heapq.heappop`: pop the last element; if the heap is still nonempty,
remember `heap[0]`, move the last element to the root and `_siftup`. -/
def heappop (heap : List SchedEntry) : Except Unit (SchedEntry × List SchedEntry) :=
  match heap.getLast? with
  | Option.none => .error ()
  | some lastelt =>
    let rest := heap.dropLast
    if rest.isEmpty then .ok (lastelt, rest)
    else
      let returnitem := rest.getD 0 entryDflt
      match siftupFn (rest.set 0 lastelt) 0 with
      | .error e => .error e
      | .ok h3 => .ok (returnitem, h3)

/-- The operations hitting the scheduler: `play_note` (with the wall-clock
reading at the call and the note duration; the note-off message is an
opaque id), and one iteration of the worker loop at a wall-clock
reading. -/
inductive SchedOp where
  | play (now : ℚ) (dur : ℚ) (msg : ℕ)
  | worker (now : ℚ)
deriving DecidableEq

/-- Scheduler state: the `_queue` heap plus the log of dispatched note-off
events as `(dueTime, dispatchTime)` pairs. -/
structure SchedState where
  queue : List SchedEntry
  sent : List (ℚ × ℚ)
deriving DecidableEq

def schedInit : SchedState := { queue := [], sent := [] }

/-- One scheduler step (output port configured).  `play` is the tail of
`play_note`: `off_time = time.time() + duration; heappush(queue,
(off_time, msg_off))`.  `worker` is one iteration of `_process_queue`'s
else-branch: look at `queue[0]`; when `next_time <= now`, pop and send,
otherwise wait (no state change). -/
def schedStep (s : SchedState) : SchedOp → Except Unit SchedState
  | .play now dur msg =>
      match heappush s.queue (now + dur, msg) with
      | .error e => .error e
      | .ok q => .ok { s with queue := q }
  | .worker now =>
      if s.queue.isEmpty then .ok s
      else
        let next_time := (s.queue.getD 0 entryDflt).1
        if next_time ≤ now then
          match heappop s.queue with
          | .error e => .error e
          | .ok (e, q) => .ok { queue := q, sent := s.sent ++ [(e.1, now)] }
        else .ok s

def schedRun (s : SchedState) : List SchedOp → Except Unit SchedState
  | [] => .ok s
  | op :: rest =>
    match schedStep s op with
    | .error e => .error e
    | .ok s2 => schedRun s2 rest

/-- The due times generated by a trace of operations, in submission
order. -/
def schedDues : List SchedOp → List ℚ
  | [] => []
  | .play now dur _ :: rest => (now + dur) :: schedDues rest
  | .worker _ :: rest => schedDues rest

/-- The wall-clock reading of an operation. -/
def opTime : SchedOp → ℚ
  | .play now _ _ => now
  | .worker now => now

/-! ## Specification-side definitions

These definitions follow the wording of the specification (for refinement
comparisons with the source-translated definitions above); they are not
translations of the source. -/

/-- Spec §4.4: the harmony root offset
(tonic=0, subdominant=+5, dominant=+7, submediant=+9). -/
def specRootOffset : ChordType → ℤ
  | .I => 0
  | .IV => 5
  | .V => 7
  | .VI => 9

/-- Spec §4.4 amended to the source's thresholds: root-function = 0,
third-or-fifth a random choice between +4 and +7, color-tone a random
choice among +2/+11/+14 at thresholds 0.33 and 0.66. -/
def specIntervalOffset (f : PitchFunc) (r : ℚ) : ℤ :=
  match f with
  | .ROOT => 0
  | .THIRD_FIFTH => if r < 0.5 then 4 else 7
  | .COLOR => if r < 0.33 then 2 else if r < 0.66 then 11 else 14

/-- Spec §4.4: fixed per-channel octave transposition (channel 1 down two
octaves, channel 2 down one octave, channel 3 up two octaves). -/
def specChannelTranspose (ch : ℕ) : ℤ :=
  if ch = 1 then -24 else if ch = 2 then -12 else if ch = 3 then 24 else 0

/-- The claim's literal pitch resolution: as `specIntervalOffset` but with
the color-tone thresholds at exactly one third and two thirds, as the
specification states them. -/
def specResolvePitchThirds (c : ChordType) (f : PitchFunc) (ch : ℕ) (r : ℚ) : ℤ :=
  60 + specRootOffset c +
    (match f with
     | .ROOT => 0
     | .THIRD_FIFTH => if r < 0.5 then 4 else 7
     | .COLOR => if r < 1 / 3 then 2 else if r < 2 / 3 then 11 else 14) +
    specChannelTranspose ch

/-- A zero draw for every call site. -/
def drawsZero : Draws :=
  { play := 0, pitch := 0, chord := 0, energy := 0, channel := 0, interval := 0 }

/-- A half draw for the play gate, zero elsewhere (selects the playing
branch at keys whose play probability exceeds one half). -/
def drawsHalfPlay : Draws :=
  { play := 1 / 2, pitch := 0, chord := 0, energy := 0, channel := 0, interval := 0 }

/-- A loud kick on the bar-1 downbeat (concrete evaluation input). -/
def c8Input : BInput := { drum_type := .KICK, velocity := 100, bar := 1, step := 1 }

/-- The decision `inferBaked` produces for `c8Input` under
`drawsHalfPlay`. -/
def c8Output : BOutput :=
  { should_play := true, midi_note := 36, velocity := 90, duration := 0.5,
    channel := 1, debug_info := "I -> ROOT (Baked)" }

/-- Buffer traces in which every drain is atomic (no record lands between
the copy and the clear). -/
inductive AtomicBufOp where
  | record (e : ℕ)
  | drain
deriving DecidableEq

/-- Compile a trace of atomic operations into the raw machine steps: an
atomic drain is the copy immediately followed by the clear. -/
def atomicOps : List AtomicBufOp → List BufOp
  | [] => []
  | .record e :: rest => .record e :: atomicOps rest
  | .drain :: rest => .copy :: .clear :: atomicOps rest

/-- An interleaving in which event 2 is recorded between a drain's copy
and clear. -/
def lostTrace : List BufOp :=
  [.record 1, .copy, .record 2, .clear, .copy, .clear]

/-- The due time stored in heap slot `i` (default 0 outside the list). -/
def timeAt (l : List SchedEntry) (i : ℕ) : ℚ := (l.getD i entryDflt).1

/-- The array min-heap invariant of `heapq`: every non-root slot is at
least its parent slot. -/
def IsHeap (l : List SchedEntry) : Prop :=
  ∀ i, i < l.length → 0 < i → timeAt l (hpar i) ≤ timeAt l i

/-- All stored due times are pairwise distinct. -/
def TimesNodup (l : List SchedEntry) : Prop := (l.map Prod.fst).Nodup

/-! ## Helper lemmas on list indexing and permutations -/

theorem getD_set_self {l : List SchedEntry} {i : ℕ} (h : i < l.length) (a d : SchedEntry) :
    (l.set i a).getD i d = a := by
  rw [List.getD_eq_getElem _ _ (by simpa using h)]
  simp [List.getElem_set_self]

theorem getD_set_ne {l : List SchedEntry} {i j : ℕ} (h : i ≠ j) (a d : SchedEntry) :
    (l.set i a).getD j d = l.getD j d := by
  by_cases hj : j < l.length
  · rw [List.getD_eq_getElem _ _ (by simpa using hj), List.getD_eq_getElem _ _ hj]
    exact List.getElem_set_ne h _
  · rw [List.getD_eq_default _ _ (by simpa using Nat.le_of_not_lt hj),
      List.getD_eq_default _ _ (Nat.le_of_not_lt hj)]

theorem set_getD_self {l : List SchedEntry} {i : ℕ} (d : SchedEntry) (h : i < l.length) :
    l.set i (l.getD i d) = l := by
  rw [List.getD_eq_getElem _ _ h]
  apply List.ext_getElem
  · simp
  · intro n h1 h2
    by_cases hn : n = i
    · subst hn
      simp [List.getElem_set_self]
    · simp [List.getElem_set_ne (by omega : i ≠ n)]

theorem cons_set_perm {l : List SchedEntry} {i : ℕ} (hi : i < l.length) (x d : SchedEntry) :
    (l.getD i d :: l.set i x).Perm (x :: l) := by
  induction l generalizing i with
  | nil => simp at hi
  | cons b t ih =>
    cases i with
    | zero =>
      simp only [List.getD_cons_zero, List.set_cons_zero]
      exact List.Perm.swap ..
    | succ i =>
      have ht : i < t.length := by simpa using hi
      simp only [List.getD_cons_succ, List.set_cons_succ]
      exact ((List.Perm.swap ..).trans (List.Perm.cons b (ih ht))).trans (List.Perm.swap ..)

theorem swap_set_perm {l : List SchedEntry} {i j : ℕ} (hi : i < l.length) (hj : j < l.length)
    (d : SchedEntry) :
    ((l.set i (l.getD j d)).set j (l.getD i d)).Perm l := by
  by_cases hij : i = j
  · subst hij
    rw [List.set_set, set_getD_self d hi]
  · have p1 := cons_set_perm (l := l.set i (l.getD j d)) (i := j) (by simpa using hj)
      (l.getD i d) d
    rw [getD_set_ne hij] at p1
    have p2 := cons_set_perm (l := l) (i := i) hi (l.getD j d) d
    have p3 : (l.getD j d :: (l.set i (l.getD j d)).set j (l.getD i d)).Perm
        (l.getD j d :: l) := p1.trans p2
    exact p3.cons_inv

theorem getD_mem {l : List SchedEntry} {i : ℕ} (h : i < l.length) (d : SchedEntry) :
    l.getD i d ∈ l := by
  rw [List.getD_eq_getElem _ _ h]
  exact List.getElem_mem h

theorem getD_append_left {l : List SchedEntry} {i : ℕ} (h : i < l.length)
    (t : List SchedEntry) (d : SchedEntry) : (l ++ t).getD i d = l.getD i d := by
  rw [List.getD_eq_getElem _ _ h, List.getD_eq_getElem _ _ (by simp; omega)]
  exact (List.getElem_append_left h)

theorem getD_dropLast {l : List SchedEntry} {i : ℕ} (h : i + 1 < l.length) (d : SchedEntry) :
    l.dropLast.getD i d = l.getD i d := by
  have hi : i < l.dropLast.length := by simp [List.length_dropLast]; omega
  rw [List.getD_eq_getElem _ _ hi, List.getD_eq_getElem _ _ (by omega)]
  exact List.getElem_dropLast ..

/-! ## C3: `set_bpm` validation -/

/-- C3 (counterexample): a negative tempo is not rejected — `set_bpm`
succeeds and overwrites both the stored bpm and the interval
(`(60 / -50) / 4 = -3/10`). -/
theorem c3_counterexample :
    set_bpm (tempoInit 0) (-50) =
      .ok { bpm := -50, steps_per_beat := 4, interval := -3 / 10,
            last_tick_time := 0, step_counter := 0 } ∧
    ((tempoInit 0).bpm = 120 ∧ (120 : ℚ) ≠ -50) := by
  constructor
  · rw [show ((-3 : ℚ) / 10) = (60 / (-50)) / 4 by norm_num]
    rfl
  · constructor
    · rfl
    · norm_num

/-- C3 (amended): `set_bpm` performs no validation.  A nonzero tempo —
negative included — is accepted and updates both `bpm` and `interval`;
tempo 0 raises `ZeroDivisionError` after `self.bpm` has already been
overwritten (so the prior bpm is not retained), leaving only `interval`
unchanged. -/
theorem c3_amended (s : TempoState) (b : ℚ) (hs : s.steps_per_beat ≠ 0) :
    (b ≠ 0 → set_bpm s b = .ok { s with bpm := b, interval := (60 / b) / s.steps_per_beat }) ∧
    (b = 0 → set_bpm s b = .error { s with bpm := 0 } ∧
      (({ s with bpm := 0 } : TempoState)).interval = s.interval) := by
  constructor
  · intro hb
    simp [set_bpm, hb, hs]
  · intro hb
    subst hb
    simp [set_bpm]

theorem c3_witness :
    (tempoInit 0).steps_per_beat ≠ 0 ∧ (-50 : ℚ) ≠ 0 ∧
      set_bpm (tempoInit 0) (-50) =
        .ok { tempoInit 0 with bpm := -50, interval := (60 / (-50)) / (tempoInit 0).steps_per_beat } :=
  ⟨by norm_num [tempoInit], by norm_num,
    (c3_amended (tempoInit 0) (-50) (by norm_num [tempoInit])).1 (by norm_num)⟩

/-! ## C4: the clock fires at most once per elapsed interval -/

theorem check_tick_fire {s : TempoState} {now : ℚ} (h : now - s.last_tick_time ≥ s.interval) :
    check_tick s now = (true, fireState s) := by
  rw [check_tick, if_pos h]
  rfl

theorem check_tick_skip {s : TempoState} {now : ℚ} (h : ¬ now - s.last_tick_time ≥ s.interval) :
    check_tick s now = (false, s) := by
  rw [check_tick, if_neg h]

theorem runPolls_interval (nows : List ℚ) (s : TempoState) :
    (runPolls s nows).interval = s.interval := by
  induction nows generalizing s with
  | nil => rfl
  | cons now rest ih =>
    rw [runPolls]
    by_cases hc : now - s.last_tick_time ≥ s.interval
    · rw [check_tick_fire hc]
      exact ih _
    · rw [check_tick_skip hc]
      exact ih _

theorem runPolls_counter_le (nows : List ℚ) (s : TempoState) :
    s.step_counter ≤ (runPolls s nows).step_counter := by
  induction nows generalizing s with
  | nil => exact Nat.le_refl _
  | cons now rest ih =>
    rw [runPolls]
    by_cases hc : now - s.last_tick_time ≥ s.interval
    · rw [check_tick_fire hc]
      exact Nat.le_trans (Nat.le_succ _) (ih (fireState s))
    · rw [check_tick_skip hc]
      exact ih s

theorem runPolls_last_eq (nows : List ℚ) (s : TempoState) :
    (runPolls s nows).last_tick_time =
      s.last_tick_time +
        (((runPolls s nows).step_counter - s.step_counter : ℕ) : ℚ) * s.interval := by
  induction nows generalizing s with
  | nil => simp [runPolls]
  | cons now rest ih =>
    rw [runPolls]
    by_cases hc : now - s.last_tick_time ≥ s.interval
    · rw [check_tick_fire hc]
      have h2 := ih (fireState s)
      have hle := runPolls_counter_le rest (fireState s)
      rw [h2]
      have hfs1 : (fireState s).last_tick_time = s.last_tick_time + s.interval := rfl
      have hfs2 : (fireState s).step_counter = s.step_counter + 1 := rfl
      have hfs3 : (fireState s).interval = s.interval := rfl
      rw [hfs1, hfs2, hfs3]
      rw [hfs2] at hle
      have hc2 : (((runPolls (fireState s) rest).step_counter - (s.step_counter + 1) : ℕ) : ℚ)
          = (((runPolls (fireState s) rest).step_counter - s.step_counter : ℕ) : ℚ) - 1 := by
        have he : ((runPolls (fireState s) rest).step_counter - s.step_counter : ℕ)
            = ((runPolls (fireState s) rest).step_counter - (s.step_counter + 1) : ℕ) + 1 := by
          omega
        rw [he]
        push_cast
        ring
      rw [hc2]
      ring
    · rw [check_tick_skip hc]
      exact ih s

theorem runPolls_fired_le (nows : List ℚ) (s : TempoState) (T : ℚ)
    (hT : ∀ t ∈ nows, t ≤ T)
    (hfired : s.step_counter < (runPolls s nows).step_counter) :
    (runPolls s nows).last_tick_time ≤ T := by
  induction nows generalizing s with
  | nil => exact absurd hfired (by simp [runPolls])
  | cons now rest ih =>
    rw [runPolls] at hfired ⊢
    by_cases hc : now - s.last_tick_time ≥ s.interval
    · rw [check_tick_fire hc] at hfired ⊢
      simp only at hfired ⊢
      rcases Nat.lt_or_ge (fireState s).step_counter (runPolls (fireState s) rest).step_counter
        with hlt | hge2
      · exact ih _ (fun t ht => hT t (List.mem_cons_of_mem _ ht)) hlt
      · have heqc : (runPolls (fireState s) rest).step_counter = (fireState s).step_counter :=
          Nat.le_antisymm hge2 (runPolls_counter_le rest (fireState s))
        have hlast := runPolls_last_eq rest (fireState s)
        rw [heqc] at hlast
        simp only [Nat.sub_self, Nat.cast_zero, zero_mul, add_zero] at hlast
        rw [hlast]
        have hnow : (fireState s).last_tick_time ≤ now := by
          have hfs1 : (fireState s).last_tick_time = s.last_tick_time + s.interval := rfl
          rw [hfs1]
          linarith [hc]
        exact le_trans hnow (hT now (List.mem_cons_self ..))
    · rw [check_tick_skip hc] at hfired ⊢
      exact ih _ (fun t ht => hT t (List.mem_cons_of_mem _ ht)) hfired

/-- C4 (confirmed): a firing poll advances the counter by exactly one and
re-bases the reference time by adding exactly one interval — not by
resampling the clock — while a non-firing poll changes nothing; and over
any poll trace whose readings stay below `T`, the number of fires `n`
satisfies `last₀ + n·interval ≤ T`: at most one fire per elapsed
interval, with a missed poll merely making the next call fire
immediately. -/
theorem c4_theorem (s : TempoState) (now : ℚ) (nows : List ℚ) (T : ℚ)
    (hT : ∀ t ∈ nows, t ≤ T) :
    ((check_tick s now).1 = true →
      (check_tick s now).2.step_counter = s.step_counter + 1 ∧
      (check_tick s now).2.last_tick_time = s.last_tick_time + s.interval) ∧
    ((check_tick s now).1 = false → (check_tick s now).2 = s) ∧
    ((runPolls s nows).last_tick_time =
      s.last_tick_time +
        (((runPolls s nows).step_counter - s.step_counter : ℕ) : ℚ) * s.interval) ∧
    (s.step_counter < (runPolls s nows).step_counter →
      s.last_tick_time +
        (((runPolls s nows).step_counter - s.step_counter : ℕ) : ℚ) * s.interval ≤ T) := by
  refine ⟨?_, ?_, runPolls_last_eq nows s, ?_⟩
  · intro h
    by_cases hc : now - s.last_tick_time ≥ s.interval
    · rw [check_tick_fire hc]
      exact ⟨rfl, rfl⟩
    · rw [check_tick_skip hc] at h
      exact absurd h (by simp)
  · intro h
    by_cases hc : now - s.last_tick_time ≥ s.interval
    · rw [check_tick_fire hc] at h
      exact absurd h (by simp)
    · rw [check_tick_skip hc]
  · intro hfired
    rw [← runPolls_last_eq nows s]
    exact runPolls_fired_le nows s T hT hfired

theorem c4_witness :
    (∀ t ∈ [(1 : ℚ)/8, 1/4], t ≤ (1 : ℚ)/4) ∧
    ((runPolls (tempoInit 0) [(1 : ℚ)/8, 1/4]).last_tick_time =
      (tempoInit 0).last_tick_time +
        (((runPolls (tempoInit 0) [(1 : ℚ)/8, 1/4]).step_counter -
            (tempoInit 0).step_counter : ℕ) : ℚ) * (tempoInit 0).interval) :=
  ⟨by norm_num,
    (c4_theorem (tempoInit 0) 0 [(1 : ℚ)/8, 1/4] (1/4) (by norm_num)).2.2.1⟩

/-! ## C5: the first tick after a restart -/

/-- C5 (code evaluation): `reset` does zero the tick counter and re-base
the reference time, but the first firing poll afterwards leaves
`step_counter = 1`, and the derivation of `run_clock` /
`process_bayesian_step` (modelled on `step_counter`; the source reads the
nonexistent attribute `step_count`, and reads `bar` from the equally
nonexistent `bar_count`) then yields `beat = 1`, `sub = 1`,
`current_step = 2` — not the `step = 1` the specification promises. -/
theorem c5_theorem (s : TempoState) (t now : ℚ)
    (hfire : (check_tick (tempoReset s t) now).1 = true) :
    (tempoReset s t).step_counter = 0 ∧
    (check_tick (tempoReset s t) now).2.step_counter = 1 ∧
    currentStepOf (beatOf (check_tick (tempoReset s t) now).2.step_counter)
      (subOf (check_tick (tempoReset s t) now).2.step_counter) = 2 := by
  refine ⟨rfl, ?_⟩
  by_cases hc : now - (tempoReset s t).last_tick_time ≥ (tempoReset s t).interval
  · rw [check_tick_fire hc]
    refine ⟨rfl, ?_⟩
    norm_num [tempoReset, fireState, beatOf, subOf, currentStepOf]
  · rw [check_tick_skip hc] at hfire
    exact absurd hfire (by simp)

theorem c5_witness :
    (check_tick (tempoReset (tempoInit 0) 0) 1).1 = true ∧
    ((check_tick (tempoReset (tempoInit 0) 0) 1).2.step_counter = 1 ∧
      currentStepOf (beatOf (check_tick (tempoReset (tempoInit 0) 0) 1).2.step_counter)
        (subOf (check_tick (tempoReset (tempoInit 0) 0) 1).2.step_counter) = 2) :=
  ⟨by norm_num [check_tick, tempoReset, tempoInit],
    (c5_theorem (tempoInit 0) 0 1 (by norm_num [check_tick, tempoReset, tempoInit])).2⟩

/-! ## C6: evidence-buffer draining -/

/-- C6 (counterexample): in the interleaving `record 1; copy; record 2;
clear; copy; clear`, event 2 is recorded while a drain sits between its
copy and its clear; the clear discards it, so it appears in no drain and
is no longer buffered — it is lost, not delivered exactly once. -/
theorem c6_counterexample :
    recordedEvents lostTrace = [1, 2] ∧
    (bufRun bufInit lostTrace).drains = [[1], []] ∧
    (bufRun bufInit lostTrace).buf = [] ∧
    (∀ d ∈ (bufRun bufInit lostTrace).drains, 2 ∉ d) := by
  refine ⟨rfl, rfl, rfl, ?_⟩
  decide

theorem bufRun_atomic_general (ops : List AtomicBufOp) (s : BufState) :
    (bufRun s (atomicOps ops)).drains.flatten ++ (bufRun s (atomicOps ops)).buf =
      s.drains.flatten ++ s.buf ++ recordedEvents (atomicOps ops) := by
  induction ops generalizing s with
  | nil => simp [atomicOps, bufRun, recordedEvents]
  | cons op rest ih =>
    cases op with
    | record e =>
      rw [atomicOps, bufRun, recordedEvents]
      rw [ih]
      simp [bufStep, List.append_assoc]
    | drain =>
      rw [atomicOps, bufRun, bufRun]
      rw [show bufStep (bufStep s .copy) .clear =
        { buf := [], snap := s.buf, drains := s.drains ++ [s.buf] } from rfl]
      rw [ih]
      rw [show recordedEvents (BufOp.copy :: BufOp.clear :: atomicOps rest) =
        recordedEvents (atomicOps rest) from rfl]
      simp [List.append_assoc]

/-- C6 (amended): when every drain is atomic — no record lands between the
copy and the clear — the concatenation of all drained batches followed by
the still-buffered events is exactly the recorded events in arrival
order: every record is delivered by exactly one drain, none twice, none
lost.  (The counterexample shows the copy-then-clear pair is *not* atomic
in the source: a record between them is lost.) -/
theorem c6_amended (ops : List AtomicBufOp) :
    (bufRun bufInit (atomicOps ops)).drains.flatten ++ (bufRun bufInit (atomicOps ops)).buf =
      recordedEvents (atomicOps ops) := by
  have h := bufRun_atomic_general ops bufInit
  simpa [bufInit] using h

/-! ## C7: pitch resolution -/

/-- C7 (counterexample): at the draw `r = 0.332` the source picks the
interval +11 (its color thresholds are 0.33/0.66) while the claimed
thresholds ⅓/⅔ pick +2: pitch 95 versus 86 on channel 3 under tonic
harmony. -/
theorem c7_counterexample :
    resolve_pitch .I .COLOR 3 (332 / 1000) = 95 ∧
    specResolvePitchThirds .I .COLOR 3 (332 / 1000) = 86 ∧
    resolve_pitch .I .COLOR 3 (332 / 1000) ≠ specResolvePitchThirds .I .COLOR 3 (332 / 1000) := by
  refine ⟨?_, ?_, ?_⟩ <;> norm_num [resolve_pitch, specResolvePitchThirds,
    specRootOffset, specChannelTranspose]

/-- C7 (amended): `_resolve_pitch` decomposes exactly as the spec says —
a fixed middle reference pitch 60, plus the harmony root offset
(tonic 0, subdominant +5, dominant +7, submediant +9), plus the
pitch-function interval (root 0; third-or-fifth randomly +4 or +7;
color-tone randomly +2/+11/+14 — at the source's fixed thresholds 0.33
and 0.66, not ⅓/⅔), plus the fixed per-channel octave transposition
(channel 1 down two octaves, channel 2 down one, channel 3 up two). -/
theorem c7_amended (c : ChordType) (f : PitchFunc) (ch : ℕ) (r : ℚ) :
    resolve_pitch c f ch r = 60 + specRootOffset c + specIntervalOffset f r +
      specChannelTranspose ch := by
  cases c <;> cases f <;>
    simp only [resolve_pitch, specRootOffset, specIntervalOffset, specChannelTranspose] <;>
    split_ifs <;> omega

/-! ## C9: dominant-event selection -/

theorem dominantLoop_all_le (evs : List (DrumType × ℤ)) (d : DrumType) (m : ℤ)
    (h : ∀ p ∈ evs, p.2 ≤ m) : dominantLoop evs d m = (d, m) := by
  induction evs generalizing d m with
  | nil => rfl
  | cons p rest ih =>
    obtain ⟨dt, v⟩ := p
    rw [dominantLoop]
    rw [if_neg (by simpa using not_lt_of_ge (h (dt, v) (List.mem_cons_self ..)))]
    exact ih d m (fun q hq => h q (List.mem_cons_of_mem _ hq))

theorem dominantLoop_firstmax (evs : List (DrumType × ℤ)) (d : DrumType) (m : ℤ)
    (h : ∃ p ∈ evs, m < p.2) :
    ∃ i, ∃ hi : i < evs.length,
      dominantLoop evs d m = evs.get ⟨i, hi⟩ ∧ m < (evs.get ⟨i, hi⟩).2 ∧
      (∀ j, ∀ hj : j < evs.length, j < i → (evs.get ⟨j, hj⟩).2 < (evs.get ⟨i, hi⟩).2) ∧
      (∀ j, ∀ hj : j < evs.length, i ≤ j → (evs.get ⟨j, hj⟩).2 ≤ (evs.get ⟨i, hi⟩).2) := by
  induction evs generalizing d m with
  | nil => simp at h
  | cons p rest ih =>
    obtain ⟨dt, v⟩ := p
    by_cases hv : v > m
    · rw [dominantLoop, if_pos hv]
      by_cases hrest : ∃ q ∈ rest, v < q.2
      · obtain ⟨i, hi, heq, hm, hbefore, hafter⟩ := ih dt v hrest
        refine ⟨i + 1, by simpa using Nat.succ_lt_succ hi, ?_, ?_, ?_, ?_⟩
        · simpa using heq
        · simpa using lt_trans hv hm
        · intro j hj hji
          cases j with
          | zero => simpa using hm
          | succ j =>
            have hj2 : j < rest.length := by simpa using hj
            simpa using hbefore j hj2 (by omega)
        · intro j hj hij
          cases j with
          | zero => omega
          | succ j =>
            have hj2 : j < rest.length := by simpa using hj
            simpa using hafter j hj2 (by omega)
      · push_neg at hrest
        rw [dominantLoop_all_le rest dt v hrest]
        refine ⟨0, by simp, by simp, by simpa using hv, ?_, ?_⟩
        · intro j hj hji
          omega
        · intro j hj hij
          cases j with
          | zero => simp
          | succ j =>
            have hj2 : j < rest.length := by simpa using hj
            simpa using hrest (rest.get ⟨j, hj2⟩) (rest.get_mem ..)
    · rw [dominantLoop, if_neg hv]
      have hrest : ∃ q ∈ rest, m < q.2 := by
        obtain ⟨q, hq, hmq⟩ := h
        rcases List.mem_cons.mp hq with hq0 | hqr
        · exfalso
          rw [hq0] at hmq
          exact hv hmq
        · exact ⟨q, hqr, hmq⟩
      obtain ⟨i, hi, heq, hm, hbefore, hafter⟩ := ih d m hrest
      refine ⟨i + 1, by simpa using Nat.succ_lt_succ hi, by simpa using heq,
        by simpa using hm, ?_, ?_⟩
      · intro j hj hji
        cases j with
        | zero =>
          simp only [List.get_cons_zero, List.get_cons_succ]
          exact lt_of_le_of_lt (not_lt.mp hv) hm
        | succ j =>
          have hj2 : j < rest.length := by simpa using hj
          simpa using hbefore j hj2 (by omega)
      · intro j hj hij
        cases j with
        | zero => omega
        | succ j =>
          have hj2 : j < rest.length := by simpa using hj
          simpa using hafter j hj2 (by omega)

/-- C9 (counterexample): a buffer holding the single event `(SNARE, 0)`
has a unique maximum-intensity event, `(SNARE, 0)` itself, yet the
selection returns `(NONE, 0)` — which is not an element of the buffer at
all — because the loop seeds its running maximum with `(NONE, 0)` and
only a strictly greater velocity replaces it. -/
theorem c9_counterexample :
    selectDominant [(DrumType.SNARE, 0)] = (DrumType.NONE, 0) ∧
    (DrumType.NONE, (0 : ℤ)) ∉ [(DrumType.SNARE, (0 : ℤ))] := by
  refine ⟨rfl, ?_⟩
  decide

/-- C9 (amended): when some buffered event has positive intensity, the
selected dominant event is the first-recorded event of maximum intensity
(strictly greater than everything before it, at least everything after
it); when the buffer is empty *or contains only zero-intensity events*,
the selection falls back to `(NONE, 0)`. -/
theorem c9_amended (evs : List (DrumType × ℤ)) :
    ((∀ p ∈ evs, p.2 ≤ 0) → selectDominant evs = (.NONE, 0)) ∧
    ((∃ p ∈ evs, 0 < p.2) → ∃ i, ∃ hi : i < evs.length,
      selectDominant evs = evs.get ⟨i, hi⟩ ∧
      (∀ j, ∀ hj : j < evs.length, j < i → (evs.get ⟨j, hj⟩).2 < (evs.get ⟨i, hi⟩).2) ∧
      (∀ j, ∀ hj : j < evs.length, i ≤ j → (evs.get ⟨j, hj⟩).2 ≤ (evs.get ⟨i, hi⟩).2)) := by
  constructor
  · intro h
    rw [selectDominant]
    split
    · rfl
    · exact dominantLoop_all_le evs .NONE 0 h
  · intro h
    have hne : evs.isEmpty = false := by
      obtain ⟨p, hp, _⟩ := h
      cases evs with
      | nil => simp at hp
      | cons q rest => rfl
    rw [selectDominant, if_neg (by simp [hne])]
    obtain ⟨i, hi, heq, _, hbefore, hafter⟩ := dominantLoop_firstmax evs .NONE 0 h
    exact ⟨i, hi, heq, hbefore, hafter⟩

theorem c9_witness :
    (∃ p ∈ [(DrumType.KICK, (50 : ℤ)), (DrumType.SNARE, 50)], 0 < p.2) ∧
    (∃ i, ∃ hi : i < ([(DrumType.KICK, (50 : ℤ)), (DrumType.SNARE, 50)] : List (DrumType × ℤ)).length,
      selectDominant [(DrumType.KICK, 50), (DrumType.SNARE, 50)] =
        ([(DrumType.KICK, (50 : ℤ)), (DrumType.SNARE, 50)] : List (DrumType × ℤ)).get ⟨i, hi⟩ ∧
      (∀ j, ∀ hj : j < ([(DrumType.KICK, (50 : ℤ)), (DrumType.SNARE, 50)] : List (DrumType × ℤ)).length,
        j < i → (([(DrumType.KICK, (50 : ℤ)), (DrumType.SNARE, 50)] : List (DrumType × ℤ)).get ⟨j, hj⟩).2 <
          (([(DrumType.KICK, (50 : ℤ)), (DrumType.SNARE, 50)] : List (DrumType × ℤ)).get ⟨i, hi⟩).2) ∧
      (∀ j, ∀ hj : j < ([(DrumType.KICK, (50 : ℤ)), (DrumType.SNARE, 50)] : List (DrumType × ℤ)).length,
        i ≤ j → (([(DrumType.KICK, (50 : ℤ)), (DrumType.SNARE, 50)] : List (DrumType × ℤ)).get ⟨j, hj⟩).2 ≤
          (([(DrumType.KICK, (50 : ℤ)), (DrumType.SNARE, 50)] : List (DrumType × ℤ)).get ⟨i, hi⟩).2)) :=
  ⟨by decide, (c9_amended [(DrumType.KICK, 50), (DrumType.SNARE, 50)]).2 (by decide)⟩

/-! ## C10: durations are constants -/

/-- C10 (confirmed): every decision the baked `infer` returns has a
constant duration — exactly 0.5 when `should_play` is true (the literal
in the playing branch) and 0 for every rest (both the missing-key/sentinel
path and the sampled-rest path); the duration is never sampled from the
table. -/
theorem c10_theorem (data : BInput) (rs : Draws) (out : BOutput)
    (h : inferBaked data rs = .ok out) :
    (out.should_play = true → out.duration = 1 / 2) ∧
    (out.should_play = false → out.duration = 0) := by
  simp only [inferBaked] at h
  repeat' split at h
  all_goals first
    | (injection h with h2
       subst h2
       constructor <;> intro hs <;> simp_all [restBaked, restSampled] <;> norm_num)
    | (exact absurd h (by simp))

theorem c10_witness :
    inferBaked { drum_type := .NONE, velocity := 0, bar := 1, step := 1 } drawsZero =
      .ok restBaked ∧
    (restBaked.should_play = true → restBaked.duration = 1 / 2) ∧
    (restBaked.should_play = false → restBaked.duration = 0) :=
  ⟨by with_unfolding_all decide,
    c10_theorem { drum_type := .NONE, velocity := 0, bar := 1, step := 1 } drawsZero restBaked
      (by with_unfolding_all decide)⟩

/-! ## C8: no output sink configured at emit time -/

/-- C8 (confirmed): when a playing decision is produced and no output
port is configured, `process_bayesian_step` still computes the decision
(it ran `infer` first), logs it, emits exactly one
`"No Output selected!"` error notification, sends nothing, and returns
normally — the decision is discarded loudly, not silently, and the tick
loop continues. -/
theorem c8_theorem (ev : BInput) (rs : Draws) (result : BOutput)
    (hinfer : inferBaked ev rs = .ok result)
    (hplay : result.should_play = true) :
    processStep ev false rs =
      .ok [.logGen result, .logErr "No Output selected!"] ∧
    (∀ a ∈ emitPhase result false, ∀ note vel ch dur, a ≠ .playNote note vel ch dur) := by
  have hemit : emitPhase result false = [.logGen result, .logErr "No Output selected!"] := by
    rw [emitPhase, hplay]
    simp
  constructor
  · rw [processStep, hinfer]
    simp only [hemit]
  · intro a ha note vel ch dur
    rw [hemit] at ha
    rcases List.mem_cons.mp ha with h0 | h1
    · subst h0
      exact fun hc => EmitAction.noConfusion hc
    · rcases List.mem_cons.mp h1 with h0 | h2
      · subst h0
        exact fun hc => EmitAction.noConfusion hc
      · simp at h2


theorem c8_witness :
    inferBaked c8Input drawsHalfPlay = .ok c8Output ∧
    c8Output.should_play = true ∧
    processStep c8Input false drawsHalfPlay =
      .ok [.logGen c8Output, .logErr "No Output selected!"] :=
  ⟨by with_unfolding_all decide, rfl,
    (c8_theorem c8Input drawsHalfPlay c8Output (by with_unfolding_all decide) rfl).1⟩

/-! ## C1: key-space totality and the missing-key path -/

theorem find?_map_keys (l : List TableKey) (g : TableKey → Option CacheEntry) (k : TableKey) :
    (l.map (fun x => (x, g x))).find? (fun p => decide (p.1 = k)) =
      (l.find? (fun x => decide (x = k))).map (fun x => (x, g x)) := by
  induction l with
  | nil => rfl
  | cons x rest ih =>
    simp only [List.map_cons, List.find?]
    by_cases hx : x = k
    · subst hx
      rw [show (decide (x = x)) = true by simp]
      rfl
    · rw [show (decide (x = k)) = false by simpa using hx]
      exact ih

theorem mem_domainKeys (k : TableKey) :
    k ∈ domainKeys ↔ (1 ≤ k.1 ∧ k.1 ≤ 4 ∧ 1 ≤ k.2.2.2 ∧ k.2.2.2 ≤ 16) := by
  obtain ⟨b, d, lo, st⟩ := k
  simp only [domainKeys, List.mem_flatMap, List.mem_map, List.mem_range, List.mem_cons,
    List.mem_singleton, List.not_mem_nil, or_false, Prod.mk.injEq]
  constructor
  · rintro ⟨b0, hb0, drum, _hdrum, l, hl, s0, hs0, hb, hd, hlo, hst⟩
    subst hb
    subst hst
    omega
  · rintro ⟨hb1, hb4, hs1, hs16⟩
    refine ⟨b - 1, by omega, d, ?_, lo, ?_, st - 1, by omega, by omega, rfl, rfl, by omega⟩
    · cases d <;> simp
    · cases lo <;> simp

/-- C1 (amended): the build phase is total — every key of the declared
domain (bar 1-4 × drum category × loudness band × step 1-16) is present in
the baked table.  But a query whose derived key lies outside that domain
does **not** fail fast: `dict.get` returns `None` for the missing key,
which is indistinguishable from the stored "absent" sentinel, so `infer`
returns the very same `"Rest (Baked)"` decision on both paths. -/
theorem c1_amended :
    (∀ k : TableKey, 1 ≤ k.1 → k.1 ≤ 4 → 1 ≤ k.2.2.2 → k.2.2.2 ≤ 16 →
      (bakedTable.find? (fun p => decide (p.1 = k))).isSome = true) ∧
    (∀ k : TableKey, ¬(1 ≤ k.1 ∧ k.1 ≤ 4 ∧ 1 ≤ k.2.2.2 ∧ k.2.2.2 ≤ 16) →
      pyDictGet bakedTable k = Option.none) ∧
    (∀ (data : BInput) (rs : Draws),
      pyDictGet bakedTable (data.bar, data.drum_type, decide (data.velocity > 90), data.step) =
        Option.none →
      inferBaked data rs = .ok restBaked) := by
  refine ⟨?_, ?_, ?_⟩
  · intro k h1 h2 h3 h4
    rw [bakedTable, find?_map_keys]
    rw [show ∀ (o : Option TableKey) (f : TableKey → TableKey × Option CacheEntry),
      (o.map f).isSome = o.isSome from fun o f => by cases o <;> rfl]
    rw [List.find?_isSome]
    exact ⟨k, (mem_domainKeys k).mpr ⟨h1, h2, h3, h4⟩, by simp⟩
  · intro k hk
    have hnm : k ∉ domainKeys := fun hmem => hk ((mem_domainKeys k).mp hmem)
    have hfind : domainKeys.find? (fun x => decide (x = k)) = Option.none := by
      rw [List.find?_eq_none]
      intro x hx hpx
      exact hnm (by simpa using (of_decide_eq_true hpx) ▸ hx)
    rw [pyDictGet, bakedTable, find?_map_keys, hfind]
    rfl
  · intro data rs h
    simp only [inferBaked]
    rw [h]

set_option maxRecDepth 100000 in
/-- C1 (counterexample): the out-of-domain query bar = 5 does not fail: it
returns the same rest decision, `BayesianOutput(False, 0, 0, 0, 0,
"Rest (Baked)")`, that the stored "absent" sentinel (here the key
`(1, NONE, soft, 1)`) produces — a missing key and the sentinel are
indistinguishable. -/
theorem c1_counterexample :
    inferBaked { drum_type := .KICK, velocity := 100, bar := 5, step := 1 } drawsZero =
      .ok restBaked ∧
    inferBaked { drum_type := .NONE, velocity := 0, bar := 1, step := 1 } drawsZero =
      .ok restBaked := by
  constructor <;> with_unfolding_all decide

theorem c1_witness :
    ((bakedTable.find? (fun p => decide (p.1 = ((2 : ℕ), DrumType.SNARE, true, (7 : ℕ))))).isSome = true) ∧
    (pyDictGet bakedTable ((0 : ℕ), DrumType.KICK, false, (3 : ℕ)) = Option.none) ∧
    (inferBaked { drum_type := .NONE, velocity := 0, bar := 1, step := 1 } drawsZero =
      .ok restBaked) :=
  ⟨c1_amended.1 (2, .SNARE, true, 7) (by norm_num) (by norm_num) (by norm_num) (by norm_num),
    c1_amended.2.1 (0, .KICK, false, 3) (by norm_num),
    c1_amended.2.2 { drum_type := .NONE, velocity := 0, bar := 1, step := 1 } drawsZero
      (by set_option maxRecDepth 100000 in with_unfolding_all decide)⟩

/-! ## C2: the deferred-event scheduler

Correctness of the `heapq` embedding under pairwise-distinct due times,
followed by the trace-level dispatch-order theorem, and the tie
counterexample (equal due times make `heappush` compare the mido message
payloads, which raises `TypeError`). -/

theorem hpar_lt {i : ℕ} (h : 0 < i) : hpar i < i := by
  unfold hpar
  omega

theorem hpar_children {p c : ℕ} (hc : 0 < c) (h : hpar c = p) :
    c = 2 * p + 1 ∨ c = 2 * p + 2 := by
  unfold hpar at h
  omega

theorem hpar_left (p : ℕ) : hpar (2 * p + 1) = p := by
  unfold hpar
  omega

theorem hpar_right (p : ℕ) : hpar (2 * p + 2) = p := by
  unfold hpar
  omega

theorem heap_root_min {l : List SchedEntry} (hh : IsHeap l) :
    ∀ i, i < l.length → timeAt l 0 ≤ timeAt l i := by
  intro i
  induction i using Nat.strong_induction_on with
  | _ i ih =>
    intro hi
    cases Nat.eq_zero_or_pos i with
    | inl h0 => rw [h0]
    | inr hpos =>
      exact le_trans (ih (hpar i) (hpar_lt hpos) (lt_trans (hpar_lt hpos) hi)) (hh i hi hpos)

theorem heap_root_min_mem {l : List SchedEntry} (hh : IsHeap l) {e : SchedEntry}
    (he : e ∈ l) : timeAt l 0 ≤ e.1 := by
  obtain ⟨i, hi, hei⟩ := List.mem_iff_getElem.mp he
  have : timeAt l i = e.1 := by
    rw [timeAt, List.getD_eq_getElem _ _ hi, hei]
  rw [← this]
  exact heap_root_min hh i hi

theorem times_ne_of_nodup {l : List SchedEntry} (hnd : TimesNodup l) {i j : ℕ}
    (hi : i < l.length) (hj : j < l.length) (hij : i ≠ j) :
    timeAt l i ≠ timeAt l j := by
  intro heq
  have hmi : (l.map Prod.fst).get ⟨i, by simpa using hi⟩ =
      (l.map Prod.fst).get ⟨j, by simpa using hj⟩ := by
    simp only [List.get_eq_getElem, List.getElem_map]
    rw [timeAt, timeAt, List.getD_eq_getElem _ _ hi, List.getD_eq_getElem _ _ hj] at heq
    exact heq
  have := List.Nodup.getElem_inj_iff hnd |>.mp hmi
  exact hij this

theorem entryLt_ok_true {a b : SchedEntry} (h : a.1 < b.1) : entryLt a b = .ok true := by
  rw [entryLt, if_pos h]

theorem entryLt_ok_false {a b : SchedEntry} (h : b.1 < a.1) : entryLt a b = .ok false := by
  rw [entryLt, if_neg (by exact not_lt_of_gt h), if_pos h]

theorem timesNodup_of_perm {l l2 : List SchedEntry} (hp : l.Perm l2) (hnd : TimesNodup l2) :
    TimesNodup l :=
  ((hp.map Prod.fst).nodup_iff).mpr hnd

theorem timeAt_set_self {l : List SchedEntry} {i : ℕ} (h : i < l.length) (v : SchedEntry) :
    timeAt (l.set i v) i = v.1 := by
  rw [timeAt, getD_set_self h]

theorem timeAt_set_ne {l : List SchedEntry} {i j : ℕ} (h : i ≠ j) (v : SchedEntry) :
    timeAt (l.set i v) j = timeAt l j := by
  rw [timeAt, getD_set_ne h]
  rfl

theorem siftdownLoop_spec (pos : ℕ) :
    ∀ (h : List SchedEntry) (v : SchedEntry),
      pos < h.length →
      (∀ i, i < h.length → 0 < i → i ≠ pos →
        timeAt (h.set pos v) (hpar i) ≤ timeAt (h.set pos v) i) →
      (0 < pos → ∀ c, c < h.length → hpar c = pos →
        timeAt (h.set pos v) (hpar pos) ≤ timeAt (h.set pos v) c) →
      TimesNodup (h.set pos v) →
      ∃ h2, siftdownLoop h 0 pos v = .ok h2 ∧ h2.Perm (h.set pos v) ∧ IsHeap h2 := by
  induction pos using Nat.strong_induction_on with
  | _ pos ih =>
    intro h v hpos hE hF hnd
    by_cases hp0 : 0 < pos
    case neg =>
      refine ⟨h.set pos v, ?_, List.Perm.refl _, ?_⟩
      · rw [siftdownLoop, dif_neg hp0]
      · intro i hi hi0
        exact hE i (by simpa using hi) hi0 (by omega)
    case pos =>
      have hpp_lt : hpar pos < pos := hpar_lt hp0
      have hpp_len : hpar pos < h.length := lt_trans hpp_lt hpos
      have tA_pos : timeAt (h.set pos v) pos = v.1 := timeAt_set_self hpos v
      have tA_par : timeAt (h.set pos v) (hpar pos) = (h.getD (hpar pos) entryDflt).1 := by
        rw [timeAt_set_ne (show pos ≠ hpar pos by omega)]
        rfl
      have tA_other : ∀ k, k ≠ pos → timeAt (h.set pos v) k = timeAt h k := by
        intro k hk
        exact timeAt_set_ne (fun hc => hk hc.symm) v
      have hne : v.1 ≠ (h.getD (hpar pos) entryDflt).1 := by
        have hx := times_ne_of_nodup hnd (i := pos) (j := hpar pos)
          (by simpa using hpos) (by simpa using hpp_len) (by omega)
        rw [tA_pos, tA_par] at hx
        exact hx
      rcases lt_or_gt_of_ne hne with hlt | hgt
      · -- the new item is smaller than the parent: shift the parent down and recurse
        have hswap := swap_set_perm (l := h.set pos v) (i := pos) (j := hpar pos)
          (by simpa using hpos) (by simpa using hpp_len) entryDflt
        rw [getD_set_ne (show pos ≠ hpar pos by omega), getD_set_self hpos, List.set_set]
          at hswap
        -- hswap : ((h.set pos parent).set (hpar pos) v).Perm (h.set pos v)
        have tB_pos : timeAt ((h.set pos (h.getD (hpar pos) entryDflt)).set (hpar pos) v) pos
            = (h.getD (hpar pos) entryDflt).1 := by
          rw [timeAt_set_ne (show hpar pos ≠ pos by omega)]
          exact timeAt_set_self hpos _
        have tB_pp : timeAt ((h.set pos (h.getD (hpar pos) entryDflt)).set (hpar pos) v)
            (hpar pos) = v.1 :=
          timeAt_set_self (by simpa using hpp_len) v
        have tB_other : ∀ k, k ≠ pos → k ≠ hpar pos →
            timeAt ((h.set pos (h.getD (hpar pos) entryDflt)).set (hpar pos) v) k
              = timeAt h k := by
          intro k hk1 hk2
          rw [timeAt_set_ne (fun hc => hk2 hc.symm), timeAt_set_ne (fun hc => hk1 hc.symm)]
        have hE2 : ∀ i, i < (h.set pos (h.getD (hpar pos) entryDflt)).length → 0 < i →
            i ≠ hpar pos →
            timeAt ((h.set pos (h.getD (hpar pos) entryDflt)).set (hpar pos) v) (hpar i) ≤
            timeAt ((h.set pos (h.getD (hpar pos) entryDflt)).set (hpar pos) v) i := by
          intro i hi hi0 hip
          have hilen : i < h.length := by simpa using hi
          by_cases hipos : i = pos
          · subst hipos
            rw [tB_pos, tB_pp]
            exact le_of_lt hlt
          · by_cases hpi : hpar i = pos
            · have higt : pos < i := by
                have := hpar_lt hi0
                omega
              rw [hpi, tB_pos, tB_other i hipos (by omega)]
              have hx := hF hp0 i hilen hpi
              rw [tA_par, tA_other i hipos] at hx
              exact hx
            · by_cases hpi2 : hpar i = hpar pos
              · have higt : hpar pos < i := by
                  have := hpar_lt hi0
                  omega
                rw [hpi2, tB_pp, tB_other i hipos (by omega)]
                have hx := hE i hilen hi0 hipos
                rw [hpi2, tA_par, tA_other i hipos] at hx
                exact le_trans (le_of_lt hlt) hx
              · rw [tB_other i hipos hip, tB_other (hpar i) hpi hpi2]
                have hx := hE i hilen hi0 hipos
                rw [tA_other i hipos, tA_other (hpar i) hpi] at hx
                exact hx
        have hF2 : 0 < hpar pos → ∀ c, c < (h.set pos (h.getD (hpar pos) entryDflt)).length →
            hpar c = hpar pos →
            timeAt ((h.set pos (h.getD (hpar pos) entryDflt)).set (hpar pos) v)
              (hpar (hpar pos)) ≤
            timeAt ((h.set pos (h.getD (hpar pos) entryDflt)).set (hpar pos) v) c := by
          intro hpp0 c hc hcp
          have hclen : c < h.length := by simpa using hc
          have hg_lt : hpar (hpar pos) < hpar pos := hpar_lt hpp0
          have tB_g : timeAt ((h.set pos (h.getD (hpar pos) entryDflt)).set (hpar pos) v)
              (hpar (hpar pos)) = timeAt h (hpar (hpar pos)) :=
            tB_other (hpar (hpar pos)) (by omega) (by omega)
          have hq_above : timeAt h (hpar (hpar pos)) ≤ (h.getD (hpar pos) entryDflt).1 := by
            have hx := hE (hpar pos) hpp_len hpp0 (by omega)
            rw [tA_par, tA_other (hpar (hpar pos)) (by omega)] at hx
            exact hx
          by_cases hcpos : c = pos
          · subst hcpos
            rw [tB_g, tB_pos]
            exact hq_above
          · have hc0 : 0 < c := by
              rcases Nat.eq_zero_or_pos c with h0 | h0
              · exfalso
                rw [h0] at hcp
                have : hpar 0 = 0 := rfl
                omega
              · exact h0
            have hcgt : hpar pos < c := by
              have := hpar_lt hc0
              omega
            rw [tB_g, tB_other c hcpos (by omega)]
            have hx := hE c hclen hc0 hcpos
            rw [hcp, tA_par, tA_other c hcpos] at hx
            exact le_trans hq_above hx
        have hnd2 : TimesNodup ((h.set pos (h.getD (hpar pos) entryDflt)).set (hpar pos) v) :=
          timesNodup_of_perm hswap hnd
        obtain ⟨h2, heq2, hperm2, hheap2⟩ := ih (hpar pos) hpp_lt
          (h.set pos (h.getD (hpar pos) entryDflt)) v (by simpa using hpp_len) hE2 hF2 hnd2
        refine ⟨h2, ?_, hperm2.trans hswap, hheap2⟩
        rw [siftdownLoop, dif_pos hp0]
        simp only [entryLt_ok_true hlt]
        exact heq2
      · -- the parent is smaller: place the new item here and stop
        refine ⟨h.set pos v, ?_, List.Perm.refl _, ?_⟩
        · rw [siftdownLoop, dif_pos hp0]
          simp only [entryLt_ok_false hgt]
        · intro i hi hi0
          have hilen : i < h.length := by simpa using hi
          by_cases hip : i = pos
          · subst hip
            rw [tA_par, tA_pos]
            exact le_of_lt hgt
          · exact hE i hilen hi0 hip

theorem getD_concat_self (l : List SchedEntry) (a d : SchedEntry) :
    (l ++ [a]).getD l.length d = a := by
  rw [List.getD_eq_getElem _ _ (by simp)]
  simp

theorem timeAt_append_left {l : List SchedEntry} {i : ℕ} (h : i < l.length)
    (t : List SchedEntry) : timeAt (l ++ t) i = timeAt l i := by
  rw [timeAt, getD_append_left h, timeAt]

theorem heappush_spec (h : List SchedEntry) (v : SchedEntry)
    (hh : IsHeap h) (hnd : TimesNodup (h ++ [v])) :
    ∃ h2, heappush h v = .ok h2 ∧ h2.Perm (h ++ [v]) ∧ IsHeap h2 := by
  have hset : (h ++ [v]).set h.length v = h ++ [v] := by
    apply List.ext_getElem
    · simp
    · intro n h1 h2
      by_cases hn : n = h.length
      · subst hn
        rw [List.getElem_set_self (by simpa using h1)]
        simp
      · rw [List.getElem_set_ne (by omega)]
  have hE : ∀ i, i < (h ++ [v]).length → 0 < i → i ≠ h.length →
      timeAt ((h ++ [v]).set h.length v) (hpar i) ≤ timeAt ((h ++ [v]).set h.length v) i := by
    intro i hi hi0 hil
    rw [hset]
    have hilen : i < h.length := by
      simp only [List.length_append, List.length_singleton] at hi
      omega
    have hplen : hpar i < h.length := lt_trans (hpar_lt hi0) hilen
    rw [timeAt_append_left hilen, timeAt_append_left hplen]
    exact hh i hilen hi0
  have hF : 0 < h.length → ∀ c, c < (h ++ [v]).length → hpar c = h.length →
      timeAt ((h ++ [v]).set h.length v) (hpar h.length) ≤
        timeAt ((h ++ [v]).set h.length v) c := by
    intro hl0 c hc hcp
    exfalso
    have hc0 : 0 < c := by
      rcases Nat.eq_zero_or_pos c with h0 | h0
      · rw [h0] at hcp
        have : hpar 0 = 0 := rfl
        omega
      · exact h0
    have := hpar_children hc0 hcp
    simp only [List.length_append, List.length_singleton] at hc
    omega
  obtain ⟨h2, heq, hperm, hheap⟩ := siftdownLoop_spec h.length (h ++ [v]) v (by simp) hE hF
    (by rwa [hset])
  rw [hset] at hperm
  refine ⟨h2, ?_, hperm, hheap⟩
  rw [heappush, siftdownFn, getD_concat_self]
  exact heq

theorem siftup_step (h : List SchedEntry) (pos cp : ℕ)
    (hpos : pos < h.length) (hcp_len : cp < h.length) (hcp_gt : pos < cp)
    (hcp_par : hpar cp = pos)
    (hmin : ∀ s, s < h.length → hpar s = pos → s ≠ cp → s ≠ pos → timeAt h cp ≤ timeAt h s)
    (hH : ∀ i, i < h.length → 0 < i → i ≠ pos → hpar i ≠ pos →
      timeAt h (hpar i) ≤ timeAt h i)
    (hI : 0 < pos → ∀ c, c < h.length → hpar c = pos → timeAt h (hpar pos) ≤ timeAt h c)
    (hD : ∀ i j, i < h.length → j < h.length → i ≠ j → i ≠ pos → j ≠ pos →
      timeAt h i ≠ timeAt h j) :
    (∀ i, i < h.length → 0 < i → i ≠ cp → hpar i ≠ cp →
      timeAt (h.set pos (h.getD cp entryDflt)) (hpar i) ≤
        timeAt (h.set pos (h.getD cp entryDflt)) i) ∧
    (0 < cp → ∀ c, c < h.length → hpar c = cp →
      timeAt (h.set pos (h.getD cp entryDflt)) (hpar cp) ≤
        timeAt (h.set pos (h.getD cp entryDflt)) c) ∧
    (∀ i j, i < h.length → j < h.length → i ≠ j → i ≠ cp → j ≠ cp →
      timeAt (h.set pos (h.getD cp entryDflt)) i ≠
        timeAt (h.set pos (h.getD cp entryDflt)) j) ∧
    (∀ x, ((h.set pos (h.getD cp entryDflt)).set cp x).Perm (h.set pos x)) := by
  have tpos : timeAt (h.set pos (h.getD cp entryDflt)) pos = timeAt h cp :=
    timeAt_set_self hpos _
  have tother : ∀ k, k ≠ pos → timeAt (h.set pos (h.getD cp entryDflt)) k = timeAt h k :=
    fun k hk => timeAt_set_ne (fun hc => hk hc.symm) _
  refine ⟨?_, ?_, ?_, ?_⟩
  · intro i hi hi0 hicp hpicp
    by_cases hipos : i = pos
    · subst hipos
      have hp0 : 0 < i := hi0
      have hpar_ne : hpar i ≠ i := by
        have := hpar_lt hi0
        omega
      rw [tpos, tother (hpar i) (by omega)]
      exact hI hi0 cp hcp_len hcp_par
    · by_cases hpi : hpar i = pos
      · rw [hpi, tpos, tother i hipos]
        exact hmin i hi hpi hicp hipos
      · rw [tother i hipos, tother (hpar i) hpi]
        exact hH i hi hi0 hipos hpi
  · intro hcp0 c hc hcpar
    have hc0 : 0 < c := by
      rcases Nat.eq_zero_or_pos c with h0 | h0
      · exfalso
        rw [h0] at hcpar
        have : hpar 0 = 0 := rfl
        omega
      · exact h0
    have hcgt : cp < c := by
      have := hpar_lt hc0
      omega
    rw [hcp_par, tpos, tother c (by omega)]
    have hx := hH c hc hc0 (by omega) (by omega)
    rw [hcpar] at hx
    exact hx
  · intro i j hi hj hij hicp hjcp
    by_cases hipos : i = pos
    · subst hipos
      rw [tpos, tother j (fun hc => hij hc.symm)]
      exact hD cp j hcp_len hj (fun hc => hjcp hc.symm) (by omega) (fun hc => hij hc.symm)
    · by_cases hjpos : j = pos
      · subst hjpos
        rw [tpos, tother i hipos]
        exact hD i cp hi hcp_len hicp hipos (by omega)
      · rw [tother i hipos, tother j hjpos]
        exact hD i j hi hj hij hipos hjpos
  · intro x
    have hswap := swap_set_perm (l := h.set pos x) (i := pos) (j := cp)
      (by simpa using hpos) (by simpa using hcp_len) entryDflt
    rw [getD_set_ne (show pos ≠ cp by omega), getD_set_self hpos, List.set_set] at hswap
    exact hswap

theorem siftupLoop_spec (endpos : ℕ) (fuel : ℕ) :
    ∀ (h : List SchedEntry) (pos : ℕ),
      endpos - pos ≤ fuel → endpos = h.length → pos < h.length →
      (∀ i, i < h.length → 0 < i → i ≠ pos → hpar i ≠ pos →
        timeAt h (hpar i) ≤ timeAt h i) →
      (0 < pos → ∀ c, c < h.length → hpar c = pos → timeAt h (hpar pos) ≤ timeAt h c) →
      (∀ i j, i < h.length → j < h.length → i ≠ j → i ≠ pos → j ≠ pos →
        timeAt h i ≠ timeAt h j) →
      ∃ h2 fp, siftupLoop h pos endpos = .ok (h2, fp) ∧ h2.length = h.length ∧
        fp < h.length ∧ h.length ≤ 2 * fp + 1 ∧
        (∀ x, (h2.set fp x).Perm (h.set pos x)) ∧
        (∀ i, i < h.length → 0 < i → i ≠ fp → hpar i ≠ fp →
          timeAt h2 (hpar i) ≤ timeAt h2 i) ∧
        (0 < fp → ∀ c, c < h.length → hpar c = fp → timeAt h2 (hpar fp) ≤ timeAt h2 c) := by
  induction fuel with
  | zero =>
    intro h pos hfuel hend hpos _ _ _
    omega
  | succ fuel ih =>
    intro h pos hfuel hend hpos hH hI hD
    by_cases hce : 2 * pos + 1 < endpos
    · -- a child exists
      have hcplen : 2 * pos + 1 < h.length := by omega
      have step_and_rec : ∀ cp, cp < h.length → pos < cp → hpar cp = pos →
          (∀ s, s < h.length → hpar s = pos → s ≠ cp → s ≠ pos → timeAt h cp ≤ timeAt h s) →
          ∃ h2 fp, siftupLoop (h.set pos (h.getD cp entryDflt)) cp endpos = .ok (h2, fp) ∧
            h2.length = h.length ∧ fp < h.length ∧ h.length ≤ 2 * fp + 1 ∧
            (∀ x, (h2.set fp x).Perm (h.set pos x)) ∧
            (∀ i, i < h.length → 0 < i → i ≠ fp → hpar i ≠ fp →
              timeAt h2 (hpar i) ≤ timeAt h2 i) ∧
            (0 < fp → ∀ c, c < h.length → hpar c = fp → timeAt h2 (hpar fp) ≤ timeAt h2 c) := by
        intro cp hcp hgt hcpar hmin
        obtain ⟨hH2, hI2, hD2, hperm2⟩ := siftup_step h pos cp hpos hcp hgt hcpar hmin hH hI hD
        have hlen2 : (h.set pos (h.getD cp entryDflt)).length = h.length := by simp
        obtain ⟨h2, fp, heq, hl2, hfp, hleaf, hpermx, hHe, hIe⟩ := ih
          (h.set pos (h.getD cp entryDflt)) cp (by omega) (by omega) (by omega)
          (by rw [hlen2]; exact hH2) (by rw [hlen2]; exact hI2) (by rw [hlen2]; exact hD2)
        refine ⟨h2, fp, heq, by omega, by omega, by omega, ?_, by rw [hlen2] at hHe; exact hHe,
          by rw [hlen2] at hIe; exact hIe⟩
        intro x
        exact (hpermx x).trans (hperm2 x)
      by_cases hre : 2 * pos + 2 < endpos
      · have hrplen : 2 * pos + 2 < h.length := by omega
        have hneq := hD (2 * pos + 1) (2 * pos + 2) hcplen hrplen (by omega) (by omega) (by omega)
        rcases lt_or_gt_of_ne hneq with hcl | hcr
        · -- left child strictly smaller: childpos stays 2*pos+1
          have hmin : ∀ s, s < h.length → hpar s = pos → s ≠ 2 * pos + 1 → s ≠ pos →
              timeAt h (2 * pos + 1) ≤ timeAt h s := by
            intro s hs hspar hscp hspos
            have hs0 : 0 < s := by
              rcases Nat.eq_zero_or_pos s with h0 | h0
              · exfalso
                subst h0
                rw [show hpar 0 = 0 from rfl] at hspar
                exact hspos hspar
              · exact h0
            have := hpar_children hs0 hspar
            have hseq : s = 2 * pos + 2 := by omega
            rw [hseq]
            exact le_of_lt hcl
          obtain ⟨h2, fp, heq, hl2, hfp, hleaf, hpermx, hHe, hIe⟩ :=
            step_and_rec (2 * pos + 1) hcplen (by omega) (hpar_left pos) hmin
          refine ⟨h2, fp, ?_, hl2, hfp, hleaf, hpermx, hHe, hIe⟩
          rw [siftupLoop, dif_pos hce]
          rw [dif_pos hre]
          simp only [entryLt_ok_true hcl]
          exact heq
        · -- right child strictly smaller: childpos becomes 2*pos+2
          have hmin : ∀ s, s < h.length → hpar s = pos → s ≠ 2 * pos + 2 → s ≠ pos →
              timeAt h (2 * pos + 2) ≤ timeAt h s := by
            intro s hs hspar hscp hspos
            have hs0 : 0 < s := by
              rcases Nat.eq_zero_or_pos s with h0 | h0
              · exfalso
                subst h0
                rw [show hpar 0 = 0 from rfl] at hspar
                exact hspos hspar
              · exact h0
            have := hpar_children hs0 hspar
            have hseq : s = 2 * pos + 1 := by omega
            rw [hseq]
            exact le_of_lt hcr
          obtain ⟨h2, fp, heq, hl2, hfp, hleaf, hpermx, hHe, hIe⟩ :=
            step_and_rec (2 * pos + 2) hrplen (by omega) (hpar_right pos) hmin
          refine ⟨h2, fp, ?_, hl2, hfp, hleaf, hpermx, hHe, hIe⟩
          rw [siftupLoop, dif_pos hce]
          rw [dif_pos hre]
          simp only [entryLt_ok_false hcr]
          exact heq
      · -- only the left child exists
        have hmin : ∀ s, s < h.length → hpar s = pos → s ≠ 2 * pos + 1 → s ≠ pos →
            timeAt h (2 * pos + 1) ≤ timeAt h s := by
          intro s hs hspar hscp hspos
          have hs0 : 0 < s := by
            rcases Nat.eq_zero_or_pos s with h0 | h0
            · exfalso
              subst h0
              rw [show hpar 0 = 0 from rfl] at hspar
              exact hspos hspar
            · exact h0
          exfalso
          have := hpar_children hs0 hspar
          omega
        obtain ⟨h2, fp, heq, hl2, hfp, hleaf, hpermx, hHe, hIe⟩ :=
          step_and_rec (2 * pos + 1) hcplen (by omega) (hpar_left pos) hmin
        refine ⟨h2, fp, ?_, hl2, hfp, hleaf, hpermx, hHe, hIe⟩
        rw [siftupLoop, dif_pos hce]
        rw [dif_neg hre]
        exact heq
    · -- no children: the hole reached a leaf
      refine ⟨h, pos, ?_, rfl, hpos, by omega, fun x => List.Perm.refl _, hH, hI⟩
      rw [siftupLoop, dif_neg hce]

theorem siftupFn_spec (h : List SchedEntry) (hlen : 0 < h.length)
    (hH : ∀ i, i < h.length → 0 < i → hpar i ≠ 0 → timeAt h (hpar i) ≤ timeAt h i)
    (hnd : TimesNodup h) :
    ∃ h3, siftupFn h 0 = .ok h3 ∧ h3.Perm h ∧ IsHeap h3 := by
  obtain ⟨h2, fp, heq, hl2, hfp, hleaf, hpermx, hHe, hIe⟩ :=
    siftupLoop_spec h.length h.length h 0 (by omega) rfl hlen
      (fun i hi hi0 _ hpi => hH i hi hi0 hpi)
      (fun hc => absurd hc (by omega))
      (fun i j hi hj hij _ _ => times_ne_of_nodup hnd hi hj hij)
  have hsetv : h.set 0 (h.getD 0 entryDflt) = h := set_getD_self entryDflt hlen
  have hpermv : (h2.set fp (h.getD 0 entryDflt)).Perm h := by
    have := hpermx (h.getD 0 entryDflt)
    rwa [hsetv] at this
  have hfp2 : fp < (h2.set fp (h.getD 0 entryDflt)).length := by
    simp only [List.length_set]
    omega
  have hset2 : ((h2.set fp (h.getD 0 entryDflt)).set fp (h.getD 0 entryDflt)) =
      h2.set fp (h.getD 0 entryDflt) := List.set_set ..
  have hE3 : ∀ i, i < (h2.set fp (h.getD 0 entryDflt)).length → 0 < i → i ≠ fp →
      timeAt ((h2.set fp (h.getD 0 entryDflt)).set fp (h.getD 0 entryDflt)) (hpar i) ≤
      timeAt ((h2.set fp (h.getD 0 entryDflt)).set fp (h.getD 0 entryDflt)) i := by
    intro i hi hi0 hifp
    rw [hset2]
    have hilen : i < h.length := by
      simp only [List.length_set] at hi
      omega
    by_cases hpi : hpar i = fp
    · exfalso
      have := hpar_children hi0 hpi
      omega
    · rw [timeAt_set_ne (fun hc => hifp hc.symm), timeAt_set_ne (fun hc => hpi hc.symm)]
      exact hHe i hilen hi0 hifp hpi
  have hF3 : 0 < fp → ∀ c, c < (h2.set fp (h.getD 0 entryDflt)).length → hpar c = fp →
      timeAt ((h2.set fp (h.getD 0 entryDflt)).set fp (h.getD 0 entryDflt)) (hpar fp) ≤
      timeAt ((h2.set fp (h.getD 0 entryDflt)).set fp (h.getD 0 entryDflt)) c := by
    intro hfp0 c hc hcp
    exfalso
    have hc0 : 0 < c := by
      rcases Nat.eq_zero_or_pos c with h0 | h0
      · subst h0
        rw [show hpar 0 = 0 from rfl] at hcp
        omega
      · exact h0
    have := hpar_children hc0 hcp
    simp only [List.length_set] at hc
    omega
  have hnd3 : TimesNodup ((h2.set fp (h.getD 0 entryDflt)).set fp (h.getD 0 entryDflt)) := by
    rw [hset2]
    exact timesNodup_of_perm hpermv hnd
  obtain ⟨h3, heq3, hperm3, hheap3⟩ :=
    siftdownLoop_spec fp (h2.set fp (h.getD 0 entryDflt)) (h.getD 0 entryDflt) hfp2 hE3 hF3 hnd3
  rw [hset2] at hperm3
  refine ⟨h3, ?_, hperm3.trans hpermv, hheap3⟩
  rw [siftupFn]
  rw [heq]
  simp only
  rw [siftdownFn, getD_set_self (by omega)]
  exact heq3

theorem heappop_spec (h : List SchedEntry) (hne : h ≠ [])
    (hh : IsHeap h) (hnd : TimesNodup h) :
    ∃ h3, heappop h = .ok (h.getD 0 entryDflt, h3) ∧
      (h.getD 0 entryDflt :: h3).Perm h ∧ IsHeap h3 ∧ TimesNodup h3 := by
  rcases Nat.lt_or_ge h.length 2 with hsmall | hbig
  · have hlen1 : h.length = 1 := by
      have := List.length_pos.mpr hne
      omega
    obtain ⟨a, ha⟩ := List.length_eq_one.mp hlen1
    subst ha
    refine ⟨[], rfl, List.Perm.refl _, ?_, ?_⟩
    · intro i hi
      simp at hi
    · simp [TimesNodup]
  · have hrlen : h.dropLast.length = h.length - 1 := List.length_dropLast h
    have hlast : h.getLast? = some (h.getLast hne) := List.getLast?_eq_getLast h hne
    have hrne : h.dropLast.isEmpty = false := by
      rw [show ∀ l : List SchedEntry, l.isEmpty = decide (l.length = 0) from fun l => by
        cases l <;> rfl]
      simp only [decide_eq_false_iff_not]
      omega
    have hret : h.dropLast.getD 0 entryDflt = h.getD 0 entryDflt :=
      getD_dropLast (by omega) entryDflt
    have hbridge : (h.getD 0 entryDflt :: h.dropLast.set 0 (h.getLast hne)).Perm h := by
      have hp1 : (h.dropLast.getD 0 entryDflt ::
          h.dropLast.set 0 (h.getLast hne)).Perm (h.getLast hne :: h.dropLast) :=
        cons_set_perm (by omega) (h.getLast hne) entryDflt
      rw [hret] at hp1
      refine hp1.trans ?_
      have hp2 := (List.perm_append_singleton (h.getLast hne) h.dropLast).symm
      rw [List.dropLast_append_getLast hne] at hp2
      exact hp2
    have hnd2 : TimesNodup (h.dropLast.set 0 (h.getLast hne)) := by
      have := timesNodup_of_perm hbridge hnd
      rw [TimesNodup, List.map_cons] at this
      exact this.of_cons
    have hH2 : ∀ i, i < (h.dropLast.set 0 (h.getLast hne)).length → 0 < i → hpar i ≠ 0 →
        timeAt (h.dropLast.set 0 (h.getLast hne)) (hpar i) ≤
          timeAt (h.dropLast.set 0 (h.getLast hne)) i := by
      intro i hi hi0 hpi
      have hilen : i < h.dropLast.length := by simpa using hi
      have hple : hpar i < i := hpar_lt hi0
      rw [timeAt_set_ne (fun hc => (by omega : ¬ (0 : ℕ) = i) hc),
        timeAt_set_ne (fun hc => hpi hc.symm)]
      rw [timeAt, timeAt, getD_dropLast (by omega) entryDflt, getD_dropLast (by omega) entryDflt]
      exact hh i (by omega) hi0
    have hlen2 : 0 < (h.dropLast.set 0 (h.getLast hne)).length := by
      simp only [List.length_set]
      omega
    obtain ⟨h3, heq3, hperm3, hheap3⟩ := siftupFn_spec (h.dropLast.set 0 (h.getLast hne))
      hlen2 hH2 hnd2
    refine ⟨h3, ?_, ?_, hheap3, timesNodup_of_perm hperm3 hnd2⟩
    · rw [heappop, hlast]
      simp only [hrne, Bool.false_eq_true, if_false]
      rw [heq3, hret]
    · exact (hperm3.cons (h.getD 0 entryDflt)).trans hbridge

theorem schedRun_spec (ops : List SchedOp) :
    ∀ s : SchedState,
      List.Pairwise (· ≤ ·) (ops.map opTime) →
      (∀ now dur msg, SchedOp.play now dur msg ∈ ops → 0 ≤ dur) →
      List.Pairwise (· ≠ ·) (schedDues ops) →
      IsHeap s.queue →
      TimesNodup s.queue →
      (∀ t ∈ s.queue.map Prod.fst, ∀ d ∈ schedDues ops, t ≠ d) →
      List.Sorted (· ≤ ·) (s.sent.map Prod.fst) →
      (∀ p ∈ s.sent, p.1 ≤ p.2) →
      (∀ p ∈ s.sent, ∀ op ∈ ops, p.1 ≤ opTime op) →
      (∀ p ∈ s.sent, ∀ t ∈ s.queue.map Prod.fst, p.1 ≤ t) →
      ∃ s2, schedRun s ops = .ok s2 ∧ List.Sorted (· ≤ ·) (s2.sent.map Prod.fst) ∧
        (∀ p ∈ s2.sent, p.1 ≤ p.2) := by
  induction ops with
  | nil =>
    intro s _ _ _ _ _ _ hsort hsd _ _
    exact ⟨s, rfl, hsort, hsd⟩
  | cons op rest ih =>
    intro s hmono hdur hdist hq hnd hfresh hsort hsd hsT hsq
    simp only [List.map_cons, List.pairwise_cons] at hmono
    obtain ⟨hmono_head, hmono_tail⟩ := hmono
    cases op with
    | play now dur msg =>
      simp only [schedDues, List.pairwise_cons] at hdist
      obtain ⟨hdist_head, hdist_tail⟩ := hdist
      have hdur_head : 0 ≤ dur := hdur now dur msg (List.mem_cons_self ..)
      have hnd_push : TimesNodup (s.queue ++ [(now + dur, msg)]) := by
        rw [TimesNodup]
        rw [((List.perm_append_singleton ((now + dur, msg) : SchedEntry) s.queue).map
          Prod.fst).nodup_iff]
        rw [List.map_cons, List.nodup_cons]
        refine ⟨?_, hnd⟩
        intro hmem
        exact hfresh (now + dur) hmem (now + dur) (by rw [schedDues]; exact List.mem_cons_self ..)
          rfl
      obtain ⟨q2, heqp, hperm, hq2⟩ := heappush_spec s.queue (now + dur, msg) hq hnd_push
      have hq2mem : ∀ t ∈ q2.map Prod.fst, t ∈ s.queue.map Prod.fst ∨ t = now + dur := by
        intro t ht
        have := (hperm.map Prod.fst).mem_iff.mp ht
        rw [List.map_append] at this
        rcases List.mem_append.mp this with h1 | h2
        · exact Or.inl h1
        · right
          simpa using h2
      obtain ⟨s3, heq3, hs1, hs2⟩ := ih { s with queue := q2 }
        hmono_tail
        (fun n d m hm => hdur n d m (List.mem_cons_of_mem _ hm))
        hdist_tail
        hq2
        (timesNodup_of_perm hperm hnd_push)
        (by
          intro t ht d hd
          rcases hq2mem t ht with h1 | h2
          · exact hfresh t h1 d (by rw [schedDues]; exact List.mem_cons_of_mem _ hd)
          · rw [h2]
            exact hdist_head d hd)
        hsort
        hsd
        (fun p hp op' hop' => hsT p hp op' (List.mem_cons_of_mem _ hop'))
        (by
          intro p hp t ht
          rcases hq2mem t ht with h1 | h2
          · exact hsq p hp t h1
          · rw [h2]
            have h3 : p.1 ≤ now := hsT p hp (SchedOp.play now dur msg) (List.mem_cons_self ..)
            linarith)
      refine ⟨s3, ?_, hs1, hs2⟩
      rw [schedRun, schedStep, heqp]
      exact heq3
    | worker now =>
      simp only [schedDues] at hdist hfresh
      have hnowle : ∀ op' ∈ rest, now ≤ opTime op' := by
        intro op' hop'
        exact hmono_head (opTime op') (List.mem_map_of_mem opTime hop')
      by_cases hemp : s.queue.isEmpty
      · obtain ⟨s3, heq3, hs1, hs2⟩ := ih s hmono_tail
          (fun n d m hm => hdur n d m (List.mem_cons_of_mem _ hm))
          hdist hq hnd hfresh hsort hsd
          (fun p hp op' hop' => hsT p hp op' (List.mem_cons_of_mem _ hop'))
          hsq
        refine ⟨s3, ?_, hs1, hs2⟩
        rw [schedRun, schedStep, if_pos hemp]
        exact heq3
      · have hne : s.queue ≠ [] := by
          cases hqq : s.queue with
          | nil =>
            rw [hqq] at hemp
            exact absurd rfl hemp
          | cons a t =>
            simp
        have hroot_mem : (s.queue.getD 0 entryDflt).1 ∈ s.queue.map Prod.fst :=
          List.mem_map_of_mem Prod.fst (getD_mem (List.length_pos.mpr hne) entryDflt)
        by_cases hdue : (s.queue.getD 0 entryDflt).1 ≤ now
        · obtain ⟨q3, heqp, hperm, hq3, hnd3⟩ := heappop_spec s.queue hne hq hnd
          have hq3mem : ∀ t ∈ q3.map Prod.fst, t ∈ s.queue.map Prod.fst := by
            intro t ht
            obtain ⟨e, he, het⟩ := List.mem_map.mp ht
            exact het ▸ List.mem_map_of_mem Prod.fst
              (hperm.mem_iff.mp (List.mem_cons_of_mem _ he))
          have hmin : ∀ t ∈ q3.map Prod.fst, (s.queue.getD 0 entryDflt).1 ≤ t := by
            intro t ht
            obtain ⟨e, he, het⟩ := List.mem_map.mp ht
            have hEq : e ∈ s.queue := hperm.mem_iff.mp (List.mem_cons_of_mem _ he)
            rw [← het]
            exact heap_root_min_mem hq hEq
          obtain ⟨s3, heq3, hs1, hs2⟩ := ih
            { queue := q3, sent := s.sent ++ [((s.queue.getD 0 entryDflt).1, now)] }
            hmono_tail
            (fun n d m hm => hdur n d m (List.mem_cons_of_mem _ hm))
            hdist hq3 hnd3
            (fun t ht d hd => hfresh t (hq3mem t ht) d hd)
            (by
              simp only [List.map_append, List.map_cons, List.map_nil]
              rw [List.Sorted, List.pairwise_append]
              refine ⟨hsort, List.pairwise_singleton _ _, ?_⟩
              intro a ha b hb
              rw [List.mem_singleton.mp hb]
              obtain ⟨p, hp, hpa⟩ := List.mem_map.mp ha
              rw [← hpa]
              exact hsq p hp _ hroot_mem)
            (by
              intro p hp
              rcases List.mem_append.mp hp with h1 | h2
              · exact hsd p h1
              · rw [List.mem_singleton.mp h2]
                exact hdue)
            (by
              intro p hp op' hop'
              rcases List.mem_append.mp hp with h1 | h2
              · exact hsT p h1 op' (List.mem_cons_of_mem _ hop')
              · rw [List.mem_singleton.mp h2]
                exact le_trans hdue (hnowle op' hop'))
            (by
              intro p hp t ht
              rcases List.mem_append.mp hp with h1 | h2
              · exact hsq p h1 t (hq3mem t ht)
              · rw [List.mem_singleton.mp h2]
                exact hmin t ht)
          refine ⟨s3, ?_, hs1, hs2⟩
          rw [schedRun, schedStep, if_neg hemp, if_pos hdue, heqp]
          exact heq3
        · obtain ⟨s3, heq3, hs1, hs2⟩ := ih s hmono_tail
            (fun n d m hm => hdur n d m (List.mem_cons_of_mem _ hm))
            hdist hq hnd hfresh hsort hsd
            (fun p hp op' hop' => hsT p hp op' (List.mem_cons_of_mem _ hop'))
            hsq
          refine ⟨s3, ?_, hs1, hs2⟩
          rw [schedRun, schedStep, if_neg hemp, if_neg hdue]
          exact heq3

/-- C2 (amended): for every sequence of `play_note` submissions and worker
steps with monotone wall-clock readings, non-negative durations and
**pairwise-distinct** due times, the run succeeds, deferred note-off
events are dispatched in non-decreasing due-time order, and no event is
dispatched before its due time.  Equal due times are not supported by the
code: the heap entries are `(off_time, mido.Message)` tuples, and pushing
a second entry with an equal due time falls through to comparing the
message payloads, which raises `TypeError` (see the counterexample), so
there is no stable submission-order tie-break. -/
theorem c2_amended (ops : List SchedOp)
    (hmono : List.Pairwise (· ≤ ·) (ops.map opTime))
    (hdur : ∀ now dur msg, SchedOp.play now dur msg ∈ ops → 0 ≤ dur)
    (hdist : List.Pairwise (· ≠ ·) (schedDues ops)) :
    ∃ s2, schedRun schedInit ops = .ok s2 ∧
      List.Sorted (· ≤ ·) (s2.sent.map Prod.fst) ∧
      (∀ p ∈ s2.sent, p.1 ≤ p.2) := by
  refine schedRun_spec ops schedInit hmono hdur hdist ?_ ?_ ?_ ?_ ?_ ?_ ?_
  · intro i hi
    simp [schedInit] at hi
  · simp [TimesNodup, schedInit]
  · intro t ht
    simp [schedInit] at ht
  · simp [schedInit, List.Sorted]
  · intro p hp
    simp [schedInit] at hp
  · intro p hp
    simp [schedInit] at hp
  · intro p hp
    simp [schedInit] at hp

set_option maxRecDepth 10000 in
/-- C2 (counterexample): two `play_note` calls at the same instant with the
same duration produce two entries with equal due times; the second
`heappush` compares the `(off_time, msg)` tuples, falls through to the
mido messages — which define no ordering — and raises `TypeError`
(modelled as `Except.error`).  Nothing is dispatched at all, so the
claimed first-submitted-first-dispatched tie-break does not exist. -/
theorem c2_counterexample :
    schedDues [SchedOp.play 0 (1 / 2) 0, SchedOp.play 0 (1 / 2) 1] = [1 / 2, 1 / 2] ∧
    schedRun schedInit [SchedOp.play 0 (1 / 2) 0, SchedOp.play 0 (1 / 2) 1] = .error () := by
  constructor
  · rw [schedDues, schedDues, schedDues]
    norm_num
  · with_unfolding_all decide

set_option maxRecDepth 10000 in
theorem c2_witness :
    (List.Pairwise (· ≤ ·) ([SchedOp.play 0 (1 / 2) 7, SchedOp.worker 1].map opTime)) ∧
    (List.Pairwise (· ≠ ·) (schedDues [SchedOp.play 0 (1 / 2) 7, SchedOp.worker 1])) ∧
    ∃ s2, schedRun schedInit [SchedOp.play 0 (1 / 2) 7, SchedOp.worker 1] = .ok s2 ∧
      List.Sorted (· ≤ ·) (s2.sent.map Prod.fst) ∧
      (∀ p ∈ s2.sent, p.1 ≤ p.2) :=
  ⟨by with_unfolding_all decide,
    by with_unfolding_all decide,
    c2_amended [SchedOp.play 0 (1 / 2) 7, SchedOp.worker 1]
      (by with_unfolding_all decide)
      (by
        intro now dur msg hm
        simp only [List.mem_cons, List.not_mem_nil, or_false] at hm
        rcases hm with h1 | h1
        · injection h1 with a b c
          subst b
          norm_num
        · exact absurd h1 (by simp))
      (by with_unfolding_all decide)⟩
